import Mathlib

/-!
Verification development for the jmod package manager (Go).

The definitions below are shallow embeddings of the Go source:
pure Go functions become Lean functions on `String` / `List Nat`
(bytes), stateful code becomes explicit state passing, and fallible
code returns `Except String`.  Section comments name the Go source
file and function each definition is translated from.

Platform notes, fixed once for the whole file:
  * the platform is Unix: `os.PathSeparator` is the slash,
    `filepath.FromSlash` is the identity, `filepath.Clean` is the
    algorithm of `path.Clean`;
  * Go byte slices are `List Nat` with values below 256;
  * Go strings are Lean `String`; all strings reaching the modelled
    comparison paths are ASCII, where Go byte order and Lean
    character order agree.
-/

namespace Jmod

/-! ## String helpers shared by the embeddings.

These mirror Go's `strings` package operations on the character
list of a string, so that all definitions evaluate inside the
kernel. -/

/-- Go `strings.HasPrefix`. -/
def strHasPre (pre s : String) : Bool :=
  pre.toList.isPrefixOf s.toList

/-- Go `strings.TrimPrefix`. -/
def strTrimPre (s pre : String) : String :=
  if strHasPre pre s then String.mk (s.toList.drop pre.toList.length) else s

/-- Character-wise map over a string (Go `strings.ReplaceAll` with a
one-character pattern and replacement). -/
def strMapChars (f : Char → Char) (s : String) : String :=
  String.mk (s.toList.map f)

/-! ## Go `path.Clean` (path/path.go), used by `filepath.Clean` on Unix.

The embedding follows the lazybuf algorithm of the Go standard
library.  The output buffer is kept in reverse order; `out.w` of the
Go code is the length of the reversed buffer.  The loop is written
with explicit fuel so that it is structurally recursive and reduces
in the kernel; one unit of fuel is spent per loop step and every step
consumes at least one input character, so the initial fuel
`length + 1` can never be exhausted. -/

/-- Backtracking step of `path.Clean` for a `..` element: pop the last
buffered char, then keep popping until a slash was popped or the
`dotdot` barrier is reached. -/
def cleanBacktrack (dotdot : Nat) : List Char → List Char
  | [] => []
  | c :: rest =>
    if rest.length > dotdot ∧ c ≠ '/' then cleanBacktrack dotdot rest else rest

/-- Main loop of `path.Clean`.  The last list is the unread input, the
one before it the reversed output buffer; `dotdot` is the barrier
index and `rooted` records whether the input began with a slash. -/
def cleanLoop (rooted : Bool) : Nat → Nat → List Char → List Char → List Char
  | _, _, out, [] => out
  | 0, _, out, _ => out
  | fuel + 1, dotdot, out, c :: rest =>
    if c = '/' then
      -- empty path element
      cleanLoop rooted fuel dotdot out rest
    else if c = '.' ∧ (rest = [] ∨ rest.headD ' ' = '/') then
      -- a lone dot element: consume the dot
      cleanLoop rooted fuel dotdot out rest
    else if c = '.' ∧ rest.headD ' ' = '.' ∧
        (rest.tail = [] ∨ rest.tail.headD ' ' = '/') then
      -- a dot-dot element: consume both dots
      if out.length > dotdot then
        cleanLoop rooted fuel dotdot (cleanBacktrack dotdot out) rest.tail
      else if !rooted then
        let out1 := if out.length > 0 then '/' :: out else out
        let out2 := '.' :: '.' :: out1
        cleanLoop rooted fuel out2.length out2 rest.tail
      else
        cleanLoop rooted fuel dotdot out rest.tail
    else
      -- ordinary path element: copy it up to the next slash
      let seg := (c :: rest).takeWhile (fun x => x ≠ '/')
      let rest2 := (c :: rest).dropWhile (fun x => x ≠ '/')
      let out1 :=
        if (rooted ∧ out.length ≠ 1) ∨ (!rooted ∧ out.length ≠ 0) then '/' :: out else out
      cleanLoop rooted fuel dotdot (seg.reverse ++ out1) rest2

/-- Go `path.Clean`.  On Unix `filepath.Clean` composed with
`filepath.FromSlash` is exactly `path.Clean`. -/
def goPathClean (s : String) : String :=
  match s.toList with
  | [] => "."
  | c :: rest =>
    let out :=
      if c = '/' then cleanLoop true (rest.length + 1) 1 ['/'] rest
      else cleanLoop false (rest.length + 2) 0 [] (c :: rest)
    if out.length = 0 then "." else String.mk out.reverse

/-- Go `filepath.IsAbs` on Unix: the path begins with a slash. -/
def goIsAbs (s : String) : Bool :=
  match s.toList with
  | '/' :: _ => true
  | _ => false

/-- Go `filepath.Join` of two elements on Unix: drop empty elements,
join the rest with a slash, and clean. -/
def goJoin2 (a b : String) : String :=
  if a = "" ∧ b = "" then ""
  else if a = "" then goPathClean b
  else if b = "" then goPathClean a
  else goPathClean (a ++ "/" ++ b)

/-- Go `filepath.Abs` on Unix: clean an absolute path, otherwise join
it to the working directory.  The working directory is passed
explicitly since it is process state. -/
def goAbs (cwd p : String) : String :=
  if goIsAbs p then goPathClean p else goJoin2 cwd p

/-- Go `unicode.IsSpace`: the White_Space property code points. -/
def goIsSpace (c : Char) : Bool :=
  let n := c.val.toNat
  n = 32 ∨ n = 9 ∨ n = 10 ∨ n = 11 ∨ n = 12 ∨ n = 13 ∨
  n = 0x85 ∨ n = 0xA0 ∨ n = 0x1680 ∨ (0x2000 ≤ n ∧ n ≤ 0x200A) ∨
  n = 0x2028 ∨ n = 0x2029 ∨ n = 0x202F ∨ n = 0x205F ∨ n = 0x3000

/-- Go `strings.TrimSpace`: drop leading and trailing white space. -/
def goTrimSpace (s : String) : String :=
  String.mk (((s.toList.dropWhile goIsSpace).reverse.dropWhile goIsSpace).reverse)

/-! ## Path safety: `secureJoin` (registry/cache.go `secureJoin`).

Both variants of the source carry the identical function.  On Unix
`filepath.FromSlash` is the identity and `os.PathSeparator` is the
slash. -/

/-- Embedding of `secureJoin(base, name)`: clean the untrusted name,
reject absolute names, join against the base and verify containment
using absolute paths. -/
def secureJoin (cwd base name : String) : Except String String :=
  let clean := goPathClean name
  if goIsAbs clean then Except.error "absolute path in archive"
  else
    let full := goJoin2 base clean
    let absBase := goAbs cwd base
    let absFull := goAbs cwd full
    if absFull = absBase then Except.ok absFull
    else if strHasPre (absBase ++ "/") absFull then Except.ok absFull
    else Except.error "path escapes dest"

/-- Claim C2.  For every base directory (an absolute, cleaned path, as
callers always pass) and every archive entry name accepted by
`secureJoin`, the returned path `p` satisfies `p = base` or `p`
starts with `base` followed by the path separator; absolute entry
names are rejected with an error.  Escaping joins are rejected by the
contrapositive of the first conjunct: every accepted result is
confined. -/
theorem secureJoin_confinement (cwd base name : String)
    (habs : goIsAbs base = true) (hclean : goPathClean base = base) :
    (∀ p, secureJoin cwd base name = Except.ok p →
        p = base ∨ strHasPre (base ++ "/") p = true) ∧
    (goIsAbs (goPathClean name) = true →
        secureJoin cwd base name = Except.error "absolute path in archive") := by
  have hbase : goAbs cwd base = base := by
    unfold goAbs
    simp [habs, hclean]
  constructor
  · intro p hp
    unfold secureJoin at hp
    by_cases hA : goIsAbs (goPathClean name) = true
    · simp [hA] at hp
    · simp only [hA, Bool.false_eq_true, if_false] at hp
      rw [hbase] at hp
      by_cases heq : goAbs cwd (goJoin2 base (goPathClean name)) = base
      · rw [if_pos heq] at hp
        cases hp
        left
        exact heq
      · rw [if_neg heq] at hp
        by_cases hpre :
            strHasPre (base ++ "/")
              (goAbs cwd (goJoin2 base (goPathClean name))) = true
        · rw [if_pos hpre] at hp
          cases hp
          right
          exact hpre
        · simp [hpre] at hp
  · intro hA
    unfold secureJoin
    simp [hA]

/-- Closed instance of `secureJoin_confinement`: base `/b`, entry
`x/y`; the accepted result is confined, and the absolute entry name
`/etc/passwd` is rejected. -/
theorem secureJoin_confinement_witness :
    goIsAbs "/b" = true ∧ goPathClean "/b" = "/b" ∧
    (∀ p, secureJoin "/" "/b" "x/y" = Except.ok p →
        p = "/b" ∨ strHasPre ("/b" ++ "/") p = true) ∧
    (goIsAbs (goPathClean "/etc/passwd") = true →
        secureJoin "/" "/b" "/etc/passwd" =
          Except.error "absolute path in archive") :=
  ⟨by decide, by decide,
    (secureJoin_confinement "/" "/b" "x/y" (by decide) (by decide)).1,
    (secureJoin_confinement "/" "/b" "/etc/passwd" (by decide) (by decide)).2⟩

/-! ## Tar path normalization (part_012 `normalizeTarPath`). -/

/-- Embedding of `normalizeTarPath(name)`: backslashes to slashes,
trim spaces, `path.Clean`, strip a leading `./`; empty or `.` maps to
the empty string, `..` segments and absolute paths are errors. -/
def normalizeTarPath (name : String) : Except String String :=
  let c1 := strMapChars (fun ch => if ch = '\\' then '/' else ch) name
  let c2 := goTrimSpace c1
  let c3 := goPathClean c2
  let cleaned := strTrimPre c3 "./"
  if cleaned = "." then Except.ok ""
  else if strHasPre "../" cleaned ∨ cleaned = ".." then
    Except.error "path escapes root"
  else if strHasPre "/" cleaned then
    Except.error "absolute path in archive"
  else Except.ok cleaned

/-- The canonicalization pipeline of `normalizeTarPath` (for stating
claim C7). -/
def tarPathCleanedForm (name : String) : String :=
  strTrimPre (goPathClean (goTrimSpace
    (strMapChars (fun ch => if ch = '\\' then '/' else ch) name))) "./"

/-- Claim C7.  `normalizeTarPath` canonicalizes via backslash
replacement, space trimming, path cleaning and `./` stripping; inputs
whose cleaned form is `.` (this includes the empty input, which cleans
to `.`) yield the empty string, a cleaned form beginning with a `..`
segment or a leading slash yields an error, and everything else is
returned cleaned. -/
theorem normalizeTarPath_spec (name : String) :
    (tarPathCleanedForm name = "." → normalizeTarPath name = Except.ok "") ∧
    ((tarPathCleanedForm name = ".." ∨
        strHasPre "../" (tarPathCleanedForm name) = true) →
      normalizeTarPath name = Except.error "path escapes root") ∧
    (strHasPre "/" (tarPathCleanedForm name) = true →
      normalizeTarPath name = Except.error "absolute path in archive") ∧
    (tarPathCleanedForm name ≠ "." →
      tarPathCleanedForm name ≠ ".." →
      strHasPre "../" (tarPathCleanedForm name) = false →
      strHasPre "/" (tarPathCleanedForm name) = false →
      normalizeTarPath name = Except.ok (tarPathCleanedForm name)) := by
  have hdef : normalizeTarPath name =
      (if tarPathCleanedForm name = "." then Except.ok ""
      else if strHasPre "../" (tarPathCleanedForm name) ∨
          tarPathCleanedForm name = ".." then
        Except.error "path escapes root"
      else if strHasPre "/" (tarPathCleanedForm name) then
        Except.error "absolute path in archive"
      else Except.ok (tarPathCleanedForm name)) := rfl
  refine ⟨?_, ?_, ?_, ?_⟩
  · intro h
    rw [hdef, if_pos h]
  · intro h
    have hdot : tarPathCleanedForm name ≠ "." := by
      intro hc
      rw [hc] at h
      rcases h with h | h
      · simp at h
      · exact absurd h (by decide)
    rw [hdef, if_neg hdot, if_pos (by tauto)]
  · intro h
    have hdot : tarPathCleanedForm name ≠ "." := by
      intro hc
      rw [hc] at h
      exact absurd h (by decide)
    rw [hdef, if_neg hdot]
    by_cases hdd : strHasPre "../" (tarPathCleanedForm name) = true ∨
        tarPathCleanedForm name = ".."
    · exfalso
      rcases hdd with hdd | hdd
      · have h3 : (tarPathCleanedForm name).toList.headD ' ' = '.' := by
          unfold strHasPre at hdd
          cases hl : (tarPathCleanedForm name).toList with
          | nil => rw [hl] at hdd; simp [List.isPrefixOf] at hdd
          | cons a t =>
            rw [hl] at hdd
            simp [List.isPrefixOf] at hdd
            simp [← hdd.1]
        have h4 : (tarPathCleanedForm name).toList.headD ' ' = '/' := by
          unfold strHasPre at h
          cases hl : (tarPathCleanedForm name).toList with
          | nil => rw [hl] at h; simp [List.isPrefixOf] at h
          | cons a t =>
            rw [hl] at h
            simp [List.isPrefixOf] at h
            simp [← h]
        rw [h3] at h4
        exact absurd h4 (by decide)
      · rw [hdd] at h
        exact absurd h (by decide)
    · rw [if_neg hdd, if_pos h]
  · intro h1 h2 h3 h4
    rw [hdef, if_neg h1, if_neg (by simp [h3, h2]), if_neg (by simp [h4])]

/-- Closed instance of `normalizeTarPath_spec`: the entry name
`../evil` (cleaned form `../evil`) is rejected, and `./a//b` cleans to
`a/b` and is accepted. -/
theorem normalizeTarPath_spec_witness :
    normalizeTarPath "../evil" = Except.error "path escapes root" ∧
    normalizeTarPath "./a//b" = Except.ok "a/b" := by
  constructor
  · exact (normalizeTarPath_spec "../evil").2.1 (by right; decide)
  · have h := (normalizeTarPath_spec "./a//b").2.2.2
      (by decide) (by decide) (by decide) (by decide)
    have h2 : tarPathCleanedForm "./a//b" = "a/b" := by decide
    rw [h, h2]

/-! ## Manifest dependency maps (part_013, package config).

Go maps from package name to specifier are association lists; the
distinction between a nil map and an empty map matters for
`Uninstall`, so maps are wrapped in `Option`. -/

/-- Go `delete(m, k)` on a string map. -/
def goMapDelete (m : List (String × String)) (k : String) : List (String × String) :=
  m.filter (fun kv => kv.1 ≠ k)

/-- The three dependency maps of `config.Mod` (part_013): runtime,
dev and optional dependencies.  `none` is a nil Go map. -/
structure ModDeps where
  npmDependencies : Option (List (String × String))
  npmDevDependencies : Option (List (String × String))
  npmOptionalDependencies : Option (List (String × String))
  deriving Repr, DecidableEq

/-- Embedding of `config.Uninstall` (part_013): delete the name from
each non-nil map, and fail with `no such dependency` when nothing was
done, i.e. when all three maps are nil. -/
def uninstall (mod : ModDeps) (name : String) : ModDeps × Except String Unit :=
  let step1 := match mod.npmDependencies with
    | some m => (some (goMapDelete m name), true)
    | none => ((none : Option (List (String × String))), false)
  let step2 := match mod.npmDevDependencies with
    | some m => (some (goMapDelete m name), true)
    | none => ((none : Option (List (String × String))), false)
  let step3 := match mod.npmOptionalDependencies with
    | some m => (some (goMapDelete m name), true)
    | none => ((none : Option (List (String × String))), false)
  let doneSomething := step1.2 ∨ step2.2 ∨ step3.2
  let newMod : ModDeps := ⟨step1.1, step2.1, step3.1⟩
  if doneSomething then (newMod, Except.ok ())
  else (newMod, Except.error "no such dependency")

/-- Claim C10.  `Uninstall(mod, name)` deletes the name from every
non-nil dependency map and errors with `no such dependency` exactly
when all three maps are nil; with at least one non-nil map the call
succeeds even if the name is absent from it. -/
theorem uninstall_spec (mod : ModDeps) (name : String) :
    ((uninstall mod name).2 = Except.error "no such dependency" ↔
      (mod.npmDependencies = none ∧ mod.npmDevDependencies = none ∧
        mod.npmOptionalDependencies = none)) ∧
    ((uninstall mod name).1.npmDependencies =
      Option.map (fun m => goMapDelete m name) mod.npmDependencies) ∧
    ((uninstall mod name).1.npmDevDependencies =
      Option.map (fun m => goMapDelete m name) mod.npmDevDependencies) ∧
    ((uninstall mod name).1.npmOptionalDependencies =
      Option.map (fun m => goMapDelete m name) mod.npmOptionalDependencies) ∧
    (¬(mod.npmDependencies = none ∧ mod.npmDevDependencies = none ∧
        mod.npmOptionalDependencies = none) →
      (uninstall mod name).2 = Except.ok ()) := by
  rcases mod with ⟨d, v, o⟩
  cases d <;> cases v <;> cases o <;> simp [uninstall]

/-- Closed instance of `uninstall_spec`: one non-nil map lacking the
name still succeeds (the name is simply absent), and the nil-map
manifest errors. -/
theorem uninstall_spec_witness :
    (uninstall ⟨some [("a", "1.0.0")], none, none⟩ "b").2 = Except.ok () ∧
    (uninstall ⟨none, none, none⟩ "b").2 =
      Except.error "no such dependency" := by
  constructor
  · exact (uninstall_spec ⟨some [("a", "1.0.0")], none, none⟩ "b").2.2.2.2
      (by simp)
  · exact (uninstall_spec ⟨none, none, none⟩ "b").1.mpr (by simp)

/-! ## The `npm:` alias specifier (part_013 `runGo`, identically in
config/mod.go `ResolveDependenciesDeep`). -/

/-- Go `strings.CutPrefix`. -/
def strCutPre (s pre : String) : Bool × String :=
  if strHasPre pre s then (true, String.mk (s.toList.drop pre.toList.length))
  else (false, s)

/-- Go `strings.LastIndex(s, sub)` for a one-character `sub`; `-1`
when the character does not occur.  Alias strings are ASCII, where Go
byte indices and character indices agree. -/
def strLastIndexChar (s : String) (c : Char) : Int :=
  match s.toList.reverse.findIdx? (fun x => x = c) with
  | some j => Int.ofNat (s.toList.length - 1 - j)
  | none => -1

/-- Embedding of the `npm:` branch of `runGo` (part_013): cut the
`npm:` prefix, split the alias on its last `@` when that `@` sits at
an index greater than zero, otherwise keep the whole alias as the
package name and default the version to `latest`.  Without the
`npm:` prefix the pair is unchanged. -/
def npmAliasRewrite (packageName version : String) : String × String :=
  match strCutPre version "npm:" with
  | (true, al) =>
    let i := strLastIndexChar al '@'
    if i > 0 then
      (String.mk (al.toList.take i.toNat),
        String.mk (al.toList.drop (i.toNat + 1)))
    else (al, "latest")
  | (false, _) => (packageName, version)

/-- Cutting a literal prefix off a string that carries it yields the
remainder. -/
theorem strCutPre_append (pre s : String) :
    strCutPre (pre ++ s) pre = (true, s) := by
  have hl : (pre ++ s).toList = pre.toList ++ s.toList := by
    simp [String.toList]
  have hp : strHasPre pre (pre ++ s) = true := by
    unfold strHasPre
    rw [hl]
    exact List.isPrefixOf_iff_prefix.mpr (List.prefix_append _ _)
  unfold strCutPre
  rw [if_pos hp, hl, List.drop_left]
  cases s
  rfl

/-- Claim C9.  For a dependency specifier `npm:` followed by an alias
containing no `@` at an index greater than zero, the resolver keeps
the whole alias as the package name and defaults the version
specifier to the distribution tag `latest` (which the caller then
resolves through the registry tag lookup, `latest` not being a
parseable semver constraint). -/
theorem npmAlias_defaults_latest (packageName al : String)
    (h : strLastIndexChar al '@' ≤ 0) :
    npmAliasRewrite packageName ("npm:" ++ al) = (al, "latest") := by
  unfold npmAliasRewrite
  rw [strCutPre_append]
  simp only []
  rw [if_neg (by omega)]

/-- Closed instance of `npmAlias_defaults_latest`: the alias
`@scope/pkg` has its only `@` at index zero, so the whole alias is
the package name and the version defaults to `latest`. -/
theorem npmAlias_defaults_latest_witness :
    strLastIndexChar "@scope/pkg" '@' ≤ 0 ∧
    npmAliasRewrite "x" ("npm:" ++ "@scope/pkg") = ("@scope/pkg", "latest") :=
  ⟨by decide, npmAlias_defaults_latest "x" "@scope/pkg" (by decide)⟩

/-! ## Checksum normalization (part_012 / registry/cache.go
`normalizeExpectedChecksum`, `hasherFor`, `subtle.ConstantTimeCompare`).

Bytes are `Nat` values below 256.  `strings.TrimSpace` on the byte
level is modelled for ASCII white space; the checksum strings that
reach it are hex or base64 text. -/

/-- Checksum formats of registry/registry.go. -/
inductive ChecksumFormat where
  | unknown
  | sha256
  | sha512
  deriving Repr, DecidableEq

/-- Source archive formats of registry/registry.go. -/
inductive SourceFormat where
  | unknown
  | tarGz
  | tarXz
  deriving Repr, DecidableEq

/-- Digest size of a checksum format (`hasherFor` and the `want`
switch of `normalizeExpectedChecksum`); `none` is the
`unknown checksum format` error. -/
def digestSize : ChecksumFormat → Option Nat
  | .sha256 => some 32
  | .sha512 => some 64
  | .unknown => none

/-- ASCII white-space byte (space trimming of checksum text). -/
def asciiSpaceByte (c : Nat) : Bool :=
  c = 32 ∨ c = 9 ∨ c = 10 ∨ c = 11 ∨ c = 12 ∨ c = 13

/-- Byte-level `strings.TrimSpace` for ASCII input. -/
def trimSpaceBytes (l : List Nat) : List Nat :=
  ((l.dropWhile asciiSpaceByte).reverse.dropWhile asciiSpaceByte).reverse

/-- Hex digit value (Go `encoding/hex`). -/
def hexNib (c : Nat) : Option Nat :=
  if 48 ≤ c ∧ c ≤ 57 then some (c - 48)
  else if 97 ≤ c ∧ c ≤ 102 then some (c - 87)
  else if 65 ≤ c ∧ c ≤ 70 then some (c - 55)
  else none

/-- Go `hex.DecodeString` over bytes: pairs of hex digits; odd length
or an invalid digit is an error. -/
def hexDecodeBytes : List Nat → Option (List Nat)
  | [] => some []
  | [_] => none
  | a :: b :: t =>
    match hexNib a, hexNib b, hexDecodeBytes t with
    | some x, some y, some r => some ((x * 16 + y) :: r)
    | _, _, _ => none

/-- Standard base64 alphabet value (Go `encoding/base64`). -/
def b64Val (c : Nat) : Option Nat :=
  if 65 ≤ c ∧ c ≤ 90 then some (c - 65)
  else if 97 ≤ c ∧ c ≤ 122 then some (c - 71)
  else if 48 ≤ c ∧ c ≤ 57 then some (c + 4)
  else if c = 43 then some 62
  else if c = 47 then some 63
  else none

/-- Base64 payload decoding without padding characters; a remainder of
one character is invalid.  Trailing padding bits are ignored as in
Go's default (non-strict) decoder. -/
def b64DecodeCore : List Nat → Option (List Nat)
  | [] => some []
  | [_] => none
  | [a, b] =>
    match b64Val a, b64Val b with
    | some va, some vb => some [va * 4 + vb / 16]
    | _, _ => none
  | [a, b, c] =>
    match b64Val a, b64Val b, b64Val c with
    | some va, some vb, some vc =>
      some [va * 4 + vb / 16, (vb % 16) * 16 + vc / 4]
    | _, _, _ => none
  | a :: b :: c :: d :: t =>
    match b64Val a, b64Val b, b64Val c, b64Val d, b64DecodeCore t with
    | some va, some vb, some vc, some vd, some r =>
      some ((va * 4 + vb / 16) :: ((vb % 16) * 16 + vc / 4) ::
        ((vc % 4) * 64 + vd) :: r)
    | _, _, _, _, _ => none

/-- Go `base64.StdEncoding.DecodeString` over bytes: newlines are
ignored, the length must be a multiple of four, at most two trailing
padding characters, none elsewhere. -/
def b64StdDecode (l : List Nat) : Option (List Nat) :=
  let l2 := l.filter (fun c => c ≠ 10 ∧ c ≠ 13)
  if l2.length % 4 ≠ 0 then none
  else
    let pad := (l2.reverse.takeWhile (fun c => c = 61)).length
    if pad > 2 then none
    else
      let body := l2.take (l2.length - pad)
      if body.any (fun c => c = 61) then none
      else b64DecodeCore body

/-- Go `base64.RawStdEncoding.DecodeString` over bytes: newlines are
ignored, no padding characters allowed. -/
def b64RawDecode (l : List Nat) : Option (List Nat) :=
  let l2 := l.filter (fun c => c ≠ 10 ∧ c ≠ 13)
  if l2.any (fun c => c = 61) then none
  else b64DecodeCore l2

/-- Embedding of `normalizeExpectedChecksum`: raw bytes of the right
length, else trimmed text decoded as hex of double length, standard
base64, or raw base64 — the first decoding of the right length
wins. -/
def normalizeExpectedChecksum (exp : List Nat) (cf : ChecksumFormat) :
    Except String (List Nat) :=
  match digestSize cf with
  | none => Except.error "unknown checksum format"
  | some want =>
    if exp.length = want then Except.ok exp
    else
      let s := trimSpaceBytes exp
      let hexHit : Option (List Nat) :=
        if s.length = want * 2 then
          match hexDecodeBytes s with
          | some b => if b.length = want then some b else none
          | none => none
        else none
      match hexHit with
      | some b => Except.ok b
      | none =>
        match b64StdDecode s with
        | some b =>
          if b.length = want then Except.ok b
          else
            match b64RawDecode s with
            | some b2 =>
              if b2.length = want then Except.ok b2
              else Except.error "expected checksum not raw hex or b64"
            | none => Except.error "expected checksum not raw hex or b64"
        | none =>
          match b64RawDecode s with
          | some b2 =>
            if b2.length = want then Except.ok b2
            else Except.error "expected checksum not raw hex or b64"
          | none => Except.error "expected checksum not raw hex or b64"

/-- Go `subtle.ConstantTimeCompare` on byte slices: `1` exactly when
the slices are equal (`0` in particular when the lengths differ). -/
def constantTimeCompare (x y : List Nat) : Nat :=
  if x = y then 1 else 0

/-! ## Per-key cache locks (part_012 / registry/cache.go `lockCache`).

The lock map is an association list from key to mutex identity plus a
counter for allocating fresh mutexes; `lockCache` runs under the
guarding `cacheLock`, so its body is atomic. -/

/-- The lock key `fmt.Sprintf("%s:%s@%s", registry, packageName,
version)`. -/
def lockCacheKey (registry packageName version : String) : String :=
  registry ++ ":" ++ packageName ++ "@" ++ version

/-- One atomic `lockCache` map access: return the existing mutex for
the key or allocate a fresh one and remember it. -/
def lockCacheAcquire (st : List (String × Nat) × Nat) (key : String) :
    (List (String × Nat) × Nat) × Nat :=
  match st.1.lookup key with
  | some id => (st, id)
  | none => (((key, st.2) :: st.1, st.2 + 1), st.2)

/-- Acquiring the same key twice in a row yields the same mutex: the
second caller blocks on (and then serializes behind) the first
caller's mutex. -/
theorem lockCacheAcquire_same_key (st : List (String × Nat) × Nat) (key : String) :
    (lockCacheAcquire (lockCacheAcquire st key).1 key).2 =
      (lockCacheAcquire st key).2 := by
  unfold lockCacheAcquire
  cases h : st.1.lookup key with
  | some id => simp [h]
  | none => simp [h, List.lookup]

/-! ## `CachePut` (part_012 / registry/cache.go `CachePut`).

The whole body of `CachePut` runs inside the per-key critical
section, so a run of the process serializes the calls for one key;
the embedding is the state transformer of one call.  The filesystem
state is the set of existing final version directories.  Download and
extraction are external effects whose outcomes enter through
`PutEnv`; the embedding counts how many downloads and extraction
attempts a call performs.  The creation of the parent directory and
the temp-file cleanup are not tracked: the claims speak about the
final version directory. -/

/-- Go `filepath.Join` over a list of elements on Unix. -/
def goJoinList (parts : List String) : String :=
  let ne := parts.filter (fun p => p ≠ "")
  if ne = [] then "" else goPathClean (String.intercalate "/" ne)

/-- The registry `Resolveable` capability set (registry/registry.go),
as the tagged record the resolver returns. -/
structure Resolveable where
  name : String
  version : String
  sourceUrl : String
  sourceFormat : SourceFormat
  checksumFormat : ChecksumFormat
  checksum : List Nat
  deriving Repr

/-- Outcomes of the external effects of one `CachePut` call: the
download either fails or produces the digest computed by the
streaming hasher over the archive, and the extraction of the
downloaded archive either fails or succeeds. -/
structure PutEnv where
  downloadOutcome : Except String (List Nat)
  extractOutcome : Except String Unit

/-- Result of one `CachePut` call: the new set of final directories,
the returned path or error, and how many downloads and extraction
attempts were performed. -/
structure CachePutResult where
  st : List String
  res : Except String String
  downloads : Nat
  extractions : Nat

/-- Embedding of `CachePut` (part_012): under the per-key lock, return
early when the version directory exists; otherwise download, verify
the checksum, extract to staging, and atomically rename the staging
directory into place. -/
def cachePut (cacheRoot : String) (dirs : List String) (env : PutEnv)
    (registry : String) (r : Resolveable) : CachePutResult :=
  let packageLocation := goJoinList [cacheRoot, registry, r.name, r.version]
  if packageLocation ∈ dirs then
    ⟨dirs, Except.ok (goJoin2 packageLocation "package"), 0, 0⟩
  else
    match env.downloadOutcome with
    | Except.error e => ⟨dirs, Except.error e, 1, 0⟩
    | Except.ok gotSum =>
      match normalizeExpectedChecksum r.checksum r.checksumFormat with
      | Except.error e => ⟨dirs, Except.error e, 1, 0⟩
      | Except.ok expSum =>
        if constantTimeCompare expSum gotSum ≠ 1 then
          ⟨dirs, Except.error "checksum mismatch", 1, 0⟩
        else
          match env.extractOutcome with
          | Except.error e => ⟨dirs, Except.error e, 1, 1⟩
          | Except.ok _ =>
            ⟨packageLocation :: dirs,
              Except.ok (goJoin2 packageLocation "package"), 1, 1⟩

/-- Claim C1.  Two `CachePut` calls with the same
`(registry, name, version)` acquire the same lazily created per-key
mutex and therefore run their bodies in sequence in one order or the
other; in any such serialized execution in which both calls succeed,
at most one of them downloads and extracts, and both return the final
path `cacheRoot/registry/name/version/package`. -/
theorem cachePut_at_most_once (cacheRoot registry : String) (r : Resolveable)
    (dirs0 : List String) (envA envB : PutEnv)
    (lockSt : List (String × Nat) × Nat) (pA pB : String)
    (hA : (cachePut cacheRoot dirs0 envA registry r).res = Except.ok pA)
    (hB : (cachePut cacheRoot
        (cachePut cacheRoot dirs0 envA registry r).st envB registry r).res =
      Except.ok pB) :
    (lockCacheAcquire (lockCacheAcquire lockSt
        (lockCacheKey registry r.name r.version)).1
        (lockCacheKey registry r.name r.version)).2 =
      (lockCacheAcquire lockSt (lockCacheKey registry r.name r.version)).2 ∧
    pA = goJoin2 (goJoinList [cacheRoot, registry, r.name, r.version]) "package" ∧
    pB = pA ∧
    (cachePut cacheRoot dirs0 envA registry r).downloads +
      (cachePut cacheRoot
        (cachePut cacheRoot dirs0 envA registry r).st envB registry r).downloads ≤ 1 ∧
    (cachePut cacheRoot dirs0 envA registry r).extractions +
      (cachePut cacheRoot
        (cachePut cacheRoot dirs0 envA registry r).st envB registry r).extractions ≤ 1 := by
  refine ⟨lockCacheAcquire_same_key lockSt _, ?_⟩
  by_cases hmem : goJoinList [cacheRoot, registry, r.name, r.version] ∈ dirs0
  · -- already cached: both calls return early without downloading
    have hfirst : cachePut cacheRoot dirs0 envA registry r =
        ⟨dirs0, Except.ok (goJoin2
          (goJoinList [cacheRoot, registry, r.name, r.version]) "package"),
          0, 0⟩ := by
      simp [cachePut, hmem]
    rw [hfirst] at hA hB ⊢
    have hsecond : cachePut cacheRoot dirs0 envB registry r =
        ⟨dirs0, Except.ok (goJoin2
          (goJoinList [cacheRoot, registry, r.name, r.version]) "package"),
          0, 0⟩ := by
      simp [cachePut, hmem]
    simp only at hB ⊢
    rw [hsecond] at hB ⊢
    cases hA
    cases hB
    simp
  · -- not cached: the first call must have downloaded and extracted
    rcases hdl : envA.downloadOutcome with e | gotSum
    · simp [cachePut, hmem, hdl] at hA
    · rcases hns : normalizeExpectedChecksum r.checksum r.checksumFormat with e | expSum
      · simp [cachePut, hmem, hdl, hns] at hA
      · by_cases hcmp : constantTimeCompare expSum gotSum ≠ 1
        · simp [cachePut, hmem, hdl, hns, hcmp] at hA
        · rcases hex : envA.extractOutcome with e | u
          · simp [cachePut, hmem, hdl, hns, hcmp, hex] at hA
          · have hfirst : cachePut cacheRoot dirs0 envA registry r =
                ⟨goJoinList [cacheRoot, registry, r.name, r.version] :: dirs0,
                  Except.ok (goJoin2
                    (goJoinList [cacheRoot, registry, r.name, r.version]) "package"),
                  1, 1⟩ := by
              simp [cachePut, hmem, hdl, hns, hcmp, hex]
            rw [hfirst] at hA hB ⊢
            have hmem2 : goJoinList [cacheRoot, registry, r.name, r.version] ∈
                goJoinList [cacheRoot, registry, r.name, r.version] :: dirs0 :=
              List.mem_cons_self _ _
            simp [cachePut, hmem2] at hB ⊢
            cases hA
            cases hB
            simp

/-- Closed instance of `cachePut_at_most_once`: an empty cache and two
successful serialized calls for `npm:a@1.0.0`; together they perform
one download and one extraction and both return the same path. -/
theorem cachePut_at_most_once_witness :
    (lockCacheAcquire (lockCacheAcquire ([], 0)
        (lockCacheKey "npm" "a" "1.0.0")).1
        (lockCacheKey "npm" "a" "1.0.0")).2 =
      (lockCacheAcquire ([], 0) (lockCacheKey "npm" "a" "1.0.0")).2 ∧
    "/c/npm/a/1.0.0/package" =
      goJoin2 (goJoinList ["/c", "npm", "a", "1.0.0"]) "package" ∧
    "/c/npm/a/1.0.0/package" = "/c/npm/a/1.0.0/package" ∧
    (cachePut "/c" [] ⟨Except.ok (List.replicate 32 7), Except.ok ()⟩ "npm"
        ⟨"a", "1.0.0", "u", .tarGz, .sha256, List.replicate 32 7⟩).downloads +
      (cachePut "/c"
        (cachePut "/c" [] ⟨Except.ok (List.replicate 32 7), Except.ok ()⟩ "npm"
          ⟨"a", "1.0.0", "u", .tarGz, .sha256, List.replicate 32 7⟩).st
        ⟨Except.ok (List.replicate 32 7), Except.ok ()⟩ "npm"
        ⟨"a", "1.0.0", "u", .tarGz, .sha256, List.replicate 32 7⟩).downloads ≤ 1 ∧
    (cachePut "/c" [] ⟨Except.ok (List.replicate 32 7), Except.ok ()⟩ "npm"
        ⟨"a", "1.0.0", "u", .tarGz, .sha256, List.replicate 32 7⟩).extractions +
      (cachePut "/c"
        (cachePut "/c" [] ⟨Except.ok (List.replicate 32 7), Except.ok ()⟩ "npm"
          ⟨"a", "1.0.0", "u", .tarGz, .sha256, List.replicate 32 7⟩).st
        ⟨Except.ok (List.replicate 32 7), Except.ok ()⟩ "npm"
        ⟨"a", "1.0.0", "u", .tarGz, .sha256, List.replicate 32 7⟩).extractions ≤ 1 :=
  cachePut_at_most_once "/c" "npm"
    ⟨"a", "1.0.0", "u", .tarGz, .sha256, List.replicate 32 7⟩ []
    ⟨Except.ok (List.replicate 32 7), Except.ok ()⟩
    ⟨Except.ok (List.replicate 32 7), Except.ok ()⟩ ([], 0)
    "/c/npm/a/1.0.0/package" "/c/npm/a/1.0.0/package" (by rfl) (by rfl)

/-- Claim C4.  When the version directory is not yet cached and the
digest computed over the downloaded archive differs from the
normalized expected checksum, `CachePut` fails with the checksum
mismatch error, and the final cache directory is not created: the set
of final directories is unchanged and no extraction is attempted. -/
theorem cachePut_checksum_mismatch (cacheRoot registry : String)
    (r : Resolveable) (dirs0 : List String) (gotSum expSum : List Nat)
    (exOut : Except String Unit)
    (hnc : goJoinList [cacheRoot, registry, r.name, r.version] ∉ dirs0)
    (hnorm : normalizeExpectedChecksum r.checksum r.checksumFormat =
      Except.ok expSum)
    (hne : expSum ≠ gotSum) :
    (cachePut cacheRoot dirs0 ⟨Except.ok gotSum, exOut⟩ registry r).res =
      Except.error "checksum mismatch" ∧
    (cachePut cacheRoot dirs0 ⟨Except.ok gotSum, exOut⟩ registry r).st = dirs0 ∧
    (cachePut cacheRoot dirs0 ⟨Except.ok gotSum, exOut⟩ registry r).extractions = 0 := by
  have hcmp : constantTimeCompare expSum gotSum = 0 := by
    simp [constantTimeCompare, hne]
  simp [cachePut, hnc, hnorm, hcmp]

/-- Closed instance of `cachePut_checksum_mismatch`: expected digest
all zeros, computed digest all ones; the call fails with the mismatch
error and creates no final directory. -/
theorem cachePut_checksum_mismatch_witness :
    (cachePut "/c" [] ⟨Except.ok (List.replicate 32 1), Except.ok ()⟩ "npm"
        ⟨"a", "1.0.0", "u", .tarGz, .sha256, List.replicate 32 0⟩).res =
      Except.error "checksum mismatch" ∧
    (cachePut "/c" [] ⟨Except.ok (List.replicate 32 1), Except.ok ()⟩ "npm"
        ⟨"a", "1.0.0", "u", .tarGz, .sha256, List.replicate 32 0⟩).st = [] ∧
    (cachePut "/c" [] ⟨Except.ok (List.replicate 32 1), Except.ok ()⟩ "npm"
        ⟨"a", "1.0.0", "u", .tarGz, .sha256, List.replicate 32 0⟩).extractions = 0 :=
  cachePut_checksum_mismatch "/c" "npm"
    ⟨"a", "1.0.0", "u", .tarGz, .sha256, List.replicate 32 0⟩ []
    (List.replicate 32 1) (List.replicate 32 0) (Except.ok ())
    (by simp) (by rfl) (by decide)

/-! ## Lifecycle script deduplication (part_007
`shouldRunLifecycleScript`, `lifecycleScriptKey`).

`runLifecycleScript` executes the script body only when
`shouldRunLifecycleScript(key)` returns true; the function reads the
seen set under a read lock, then re-checks and inserts under the
write lock.  The model below projects the process onto one dedup key:
callers with other keys touch disjoint map entries.  Each caller is a
thread performing two atomic phases: the read-locked probe and the
write-locked re-check-and-insert; a schedule of thread indices picks
the interleaving. -/

/-- Go `filepath.Dir` on Unix: everything up to the final path
element, cleaned. -/
def goDir (p : String) : String :=
  let l := p.toList
  let keep := l.length - (l.reverse.takeWhile (fun c => c ≠ '/')).length
  goPathClean (String.mk (l.take keep))

/-- Go `filepath.Base` on Unix: the last element after stripping
trailing slashes. -/
def goBase (p : String) : String :=
  if p = "" then "."
  else
    let l1 := p.toList.reverse.dropWhile (fun c => c = '/')
    let l2 := l1.takeWhile (fun c => c ≠ '/')
    if l2 = [] then "/" else String.mk l2.reverse

/-- Embedding of `lifecycleScriptKey` (part_007).  `evalSymlinks` and
`pkgId` stand for `filepath.EvalSymlinks` and
`registry.PackageIdentifierFromPath`, whose outcomes are filesystem
state of the process. -/
def lifecycleScriptKey (evalSymlinks : String → Except String String)
    (pkgId : String → Option (String × String × String))
    (packageJsonPath : String) (namePtr versionPtr : Option String)
    (scriptName : String) : String :=
  let dir0 := goDir packageJsonPath
  let packageDir :=
    match evalSymlinks dir0 with
    | Except.ok resolved => if resolved ≠ "" then resolved else dir0
    | Except.error _ => dir0
  let name0 := namePtr.getD ""
  let version0 := versionPtr.getD ""
  let triple :=
    match pkgId packageDir with
    | some (s, n, v) =>
      (s, if name0 = "" then n else name0, if version0 = "" then v else version0)
    | none => ("workspace", name0, version0)
  let nameFinal := if triple.2.1 = "" then goBase packageDir else triple.2.1
  triple.1 ++ ":" ++ nameFinal ++ "@" ++ triple.2.2 ++ "#" ++ scriptName

/-- State of one caller of `shouldRunLifecycleScript` for a fixed key:
before the read-locked probe, after it (carrying what it saw), and
finished (carrying the return value). -/
inductive LcState where
  | start
  | afterRead (saw : Bool)
  | done (ran : Bool)
  deriving Repr, DecidableEq

/-- One atomic phase of `shouldRunLifecycleScript` projected to one
key: `mem` says whether the key is in the seen set.  Returns whether
the key was inserted, and the new thread state. -/
def lcStep (mem : Bool) : LcState → Bool × LcState
  | .start => (false, .afterRead mem)
  | .afterRead true => (false, .done false)
  | .afterRead false => if mem then (false, .done false) else (true, .done true)
  | .done r => (false, .done r)

/-- Run the thread at the given position for one phase. -/
def lcRunAt (mem : Bool) : List LcState → Nat → Bool × List LcState
  | [], _ => (mem, [])
  | st :: ts, 0 =>
    let r := lcStep mem st
    (mem || r.1, r.2 :: ts)
  | st :: ts, i + 1 =>
    let r := lcRunAt mem ts i
    (r.1, st :: r.2)

/-- Run a whole schedule of thread phases. -/
def lcExec (cfg : Bool × List LcState) : List Nat → Bool × List LcState
  | [] => cfg
  | i :: sched => lcExec (lcRunAt cfg.1 cfg.2 i) sched

/-- Number of callers that won the dedup race. -/
def lcCountTrue (ts : List LcState) : Nat :=
  (ts.filter (fun s => s = LcState.done true)).length

/-- Invariant of the dedup machine, with `ext` accounting for winners
outside the sublist under consideration: the winners together with a
preexisting key occupy the single seen-set slot, a set key means a
winner or a preexisting key, and a caller that saw the key or lost
implies the key is set. -/
def LcInv (mem0 : Bool) (ext : Nat) (mem : Bool) (ts : List LcState) : Prop :=
  (lcCountTrue ts + ext + (if mem0 then 1 else 0) ≤ (if mem then 1 else 0)) ∧
  (mem = true → mem0 = true ∨ 1 ≤ lcCountTrue ts + ext) ∧
  (∀ st ∈ ts, (st = LcState.afterRead true ∨ st = LcState.done false) →
    mem = true)

/-- The seen bit never falls. -/
theorem lcRunAt_mem_mono (ts : List LcState) (i : Nat) (mem : Bool)
    (h : mem = true) : (lcRunAt mem ts i).1 = true := by
  induction ts generalizing i with
  | nil => simp [lcRunAt, h]
  | cons st rest ih =>
    cases i with
    | zero => simp [lcRunAt, h]
    | succ j => simpa [lcRunAt] using ih j

/-- Splitting the winner count at the head of the thread list. -/
theorem lcCountTrue_cons (st : LcState) (ts : List LcState) :
    lcCountTrue (st :: ts) =
      (if st = LcState.done true then 1 else 0) + lcCountTrue ts := by
  by_cases h : st = LcState.done true
  · simp [lcCountTrue, List.filter_cons, h]
    omega
  · simp [lcCountTrue, List.filter_cons, h]

/-- One phase of the head thread preserves the dedup invariant. -/
theorem lcInv_head (mem0 : Bool) (ext : Nat) (mem : Bool) (st : LcState)
    (rest : List LcState) (h : LcInv mem0 ext mem (st :: rest)) :
    LcInv mem0 ext (mem || (lcStep mem st).1) ((lcStep mem st).2 :: rest) := by
  rcases h with ⟨h1, h2, h3⟩
  rw [lcCountTrue_cons] at h1
  have h3r : ∀ s ∈ rest,
      (s = LcState.afterRead true ∨ s = LcState.done false) → mem = true :=
    fun s hs hb => h3 s (List.mem_cons_of_mem _ hs) hb
  have h3h : (st = LcState.afterRead true ∨ st = LcState.done false) →
      mem = true :=
    fun hb => h3 st (List.mem_cons_self _ _) hb
  cases st with
  | start =>
    have hstep : lcStep mem LcState.start = (false, LcState.afterRead mem) := by
      cases mem <;> rfl
    rw [hstep]
    simp only [Bool.or_false]
    have hc1 : (if LcState.start = LcState.done true then 1 else 0) = 0 := rfl
    rw [hc1] at h1
    refine ⟨?_, ?_, ?_⟩
    · rw [lcCountTrue_cons]
      have : (if LcState.afterRead mem = LcState.done true then 1 else 0) = 0 := by
        cases mem <;> rfl
      rw [this]
      omega
    · intro hm
      rcases h2 hm with hl | hr
      · exact Or.inl hl
      · right
        rw [lcCountTrue_cons] at hr ⊢
        have : (if LcState.afterRead mem = LcState.done true then 1 else 0) = 0 := by
          cases mem <;> rfl
        omega
    · intro s hs hb
      rcases List.mem_cons.mp hs with he | hm2
      · subst he
        rcases hb with hb | hb
        · cases hb
          rfl
        · cases hb
      · exact h3r s hm2 hb
  | afterRead saw =>
    cases saw with
    | true =>
      have hmem : mem = true := h3h (Or.inl rfl)
      subst hmem
      have hstep : lcStep true (LcState.afterRead true) =
          (false, LcState.done false) := rfl
      rw [hstep]
      simp only [Bool.or_false]
      have e1 : (if LcState.done false = LcState.done true then 1 else 0) = 0 := rfl
      have e2 : (if LcState.afterRead true = LcState.done true then 1 else 0) = 0 := rfl
      rw [e2] at h1
      refine ⟨?_, ?_, ?_⟩
      · rw [lcCountTrue_cons, e1]
        omega
      · intro hm
        rcases h2 hm with hl | hr
        · exact Or.inl hl
        · right
          rw [lcCountTrue_cons, e2] at hr
          rw [lcCountTrue_cons, e1]
          omega
      · intro s hs hb
        rfl
    | false =>
      cases hm : mem with
      | true =>
        subst hm
        have hstep : lcStep true (LcState.afterRead false) =
            (false, LcState.done false) := rfl
        rw [hstep]
        simp only [Bool.or_false]
        have e1 : (if LcState.done false = LcState.done true then 1 else 0) = 0 := rfl
        have e2 : (if LcState.afterRead false = LcState.done true then 1 else 0) = 0 := rfl
        rw [e2] at h1
        refine ⟨?_, ?_, ?_⟩
        · rw [lcCountTrue_cons, e1]
          omega
        · intro hmm
          rcases h2 hmm with hl | hr
          · exact Or.inl hl
          · right
            rw [lcCountTrue_cons, e2] at hr
            rw [lcCountTrue_cons, e1]
            omega
        · intro s hs hb
          rfl
      | false =>
        subst hm
        have hstep : lcStep false (LcState.afterRead false) =
            (true, LcState.done true) := rfl
        rw [hstep]
        simp only [Bool.false_or]
        have hz : lcCountTrue rest + ext + (if mem0 = true then 1 else 0) ≤ 0 := by
          have : (if LcState.afterRead false = LcState.done true then 1 else 0) = 0 := rfl
          rw [this] at h1
          simpa using h1
        refine ⟨?_, ?_, ?_⟩
        · rw [lcCountTrue_cons]
          have e3 : (if LcState.done true = LcState.done true then 1 else 0) = 1 := rfl
          have e4 : (if (true : Bool) = true then 1 else 0) = 1 := rfl
          rw [e3, e4]
          omega
        · intro _
          right
          rw [lcCountTrue_cons]
          have : (if LcState.done true = LcState.done true then 1 else 0) = 1 := rfl
          rw [this]
          omega
        · intro s hs hb
          rfl
  | done r =>
    have hstep : lcStep mem (LcState.done r) = (false, LcState.done r) := by
      cases mem <;> rfl
    rw [hstep]
    simp only [Bool.or_false]
    refine ⟨?_, ?_, ?_⟩
    · rw [lcCountTrue_cons]
      omega
    · intro hm
      rcases h2 hm with hl | hr
      · exact Or.inl hl
      · right
        rw [lcCountTrue_cons] at hr
        rw [lcCountTrue_cons]
        omega
    · intro s hs hb
      rcases List.mem_cons.mp hs with he | hm2
      · subst he
        exact h3h hb
      · exact h3r s hm2 hb

/-- One phase of any thread preserves the dedup invariant. -/
theorem lcRunAt_preserves (mem0 : Bool) (ts : List LcState) (i : Nat)
    (ext : Nat) (mem : Bool) (h : LcInv mem0 ext mem ts) :
    LcInv mem0 ext (lcRunAt mem ts i).1 (lcRunAt mem ts i).2 := by
  induction ts generalizing i ext with
  | nil => simpa [lcRunAt] using h
  | cons st rest ih =>
    cases i with
    | zero =>
      have hstep : lcRunAt mem (st :: rest) 0 =
          (mem || (lcStep mem st).1, (lcStep mem st).2 :: rest) := rfl
      rw [hstep]
      exact lcInv_head mem0 ext mem st rest h
    | succ j =>
      rcases h with ⟨h1, h2, h3⟩
      rw [lcCountTrue_cons] at h1
      have hsub : LcInv mem0 (ext + (if st = LcState.done true then 1 else 0))
          mem rest := by
        refine ⟨by omega, ?_, ?_⟩
        · intro hm
          rcases h2 hm with hl | hr
          · exact Or.inl hl
          · right
            rw [lcCountTrue_cons] at hr
            omega
        · intro st2 hst2 hbad
          exact h3 st2 (List.mem_cons_of_mem _ hst2) hbad
      have hres := ih j (ext + (if st = LcState.done true then 1 else 0)) hsub
      rcases hres with ⟨g1, g2, g3⟩
      have hmono : mem = true → (lcRunAt mem rest j).1 = true :=
        lcRunAt_mem_mono rest j mem
      have hstep : lcRunAt mem (st :: rest) (j + 1) =
          ((lcRunAt mem rest j).1, st :: (lcRunAt mem rest j).2) := rfl
      rw [hstep]
      dsimp only
      refine ⟨?_, ?_, ?_⟩
      · rw [lcCountTrue_cons]
        omega
      · intro hm
        rcases g2 hm with hl | hr
        · exact Or.inl hl
        · right
          rw [lcCountTrue_cons]
          omega
      · intro st2 hst2 hbad
        rcases List.mem_cons.mp hst2 with he | hm2
        · subst he
          exact hmono (h3 _ (List.mem_cons_self _ _) hbad)
        · exact g3 st2 hm2 hbad

/-- A whole schedule preserves the dedup invariant. -/
theorem lcExec_preserves (mem0 : Bool) (sched : List Nat)
    (cfg : Bool × List LcState) (h : LcInv mem0 0 cfg.1 cfg.2) :
    LcInv mem0 0 (lcExec cfg sched).1 (lcExec cfg sched).2 := by
  induction sched generalizing cfg with
  | nil => simpa [lcExec] using h
  | cons i rest ih =>
    simp only [lcExec]
    exact ih _ (lcRunAt_preserves mem0 cfg.2 i 0 cfg.1 h)

/-- No winners among threads that have not started. -/
theorem lcCountTrue_replicate_start (n : Nat) :
    lcCountTrue (List.replicate n LcState.start) = 0 := by
  induction n with
  | zero => rfl
  | succ m ih => simpa [List.replicate_succ, lcCountTrue, List.filter_cons] using ih

/-- The dedup invariant holds before any caller has run. -/
theorem lcInv_init (mem0 : Bool) (n : Nat) :
    LcInv mem0 0 mem0 (List.replicate n LcState.start) := by
  refine ⟨?_, ?_, ?_⟩
  · rw [lcCountTrue_replicate_start]
    cases mem0 <;> simp
  · intro hm
    exact Or.inl hm
  · intro st hst hbad
    have := (List.mem_replicate.mp hst).2
    subst this
    rcases hbad with hb | hb <;> cases hb

/-- Claim C8.  The dedup key of `run_lifecycle` has the shape
`source:name@version#script` and is computed from the symlink-resolved
directory of the manifest, so two manifest paths resolving to the same
directory produce the same key; and for one key, any interleaving of
any number of `shouldRunLifecycleScript` callers (each a read-locked
probe followed by a write-locked re-check-and-insert) lets at most one
caller win the insertion race — `runLifecycleScript` executes the
script body only for the winner, so the body runs at most once per
process, the first inserting caller wins, and every later call with
the same key is a no-op. -/
theorem runLifecycle_at_most_once
    (evalSymlinks : String → Except String String)
    (pkgId : String → Option (String × String × String))
    (p1 p2 d s n v script : String)
    (mem0 : Bool) (nThreads : Nat) (sched : List Nat) :
    (evalSymlinks (goDir p1) = Except.ok d → d ≠ "" →
      pkgId d = some (s, n, v) → n ≠ "" →
      lifecycleScriptKey evalSymlinks pkgId p1 none none script =
        s ++ ":" ++ n ++ "@" ++ v ++ "#" ++ script) ∧
    (evalSymlinks (goDir p1) = Except.ok d →
      evalSymlinks (goDir p2) = Except.ok d → d ≠ "" →
      lifecycleScriptKey evalSymlinks pkgId p1 none none script =
        lifecycleScriptKey evalSymlinks pkgId p2 none none script) ∧
    (lcCountTrue (lcExec (mem0, List.replicate nThreads LcState.start) sched).2 +
      (if mem0 = true then 1 else 0) ≤ 1) ∧
    (LcState.done false ∈
        (lcExec (mem0, List.replicate nThreads LcState.start) sched).2 →
      mem0 = false →
      1 ≤ lcCountTrue
        (lcExec (mem0, List.replicate nThreads LcState.start) sched).2) := by
  have hfinal := lcExec_preserves mem0 sched
    (mem0, List.replicate nThreads LcState.start) (lcInv_init mem0 nThreads)
  rcases hfinal with ⟨f1, f2, f3⟩
  refine ⟨?_, ?_, ?_, ?_⟩
  · intro h1 h2 h3 h4
    simp only [lifecycleScriptKey]
    rw [h1]
    simp [h2, h3, h4]
  · intro h1 h2 h3
    simp only [lifecycleScriptKey]
    rw [h1, h2]
    simp [h3]
  · have hle : (if (lcExec (mem0, List.replicate nThreads LcState.start) sched).1
        = true then 1 else 0) ≤ 1 := by
      split <;> omega
    omega
  · intro hdf hm0
    have hmem : (lcExec (mem0, List.replicate nThreads LcState.start) sched).1 =
        true := f3 _ hdf (Or.inr rfl)
    rcases f2 hmem with hl | hr
    · rw [hm0] at hl
      cases hl
    · omega

/-- Closed instance of `runLifecycle_at_most_once`: a workspace link
and the cache path resolving to the same directory get the same key
`npm:a@1.0.0#postinstall`, and of two interleaved callers exactly one
wins the dedup race. -/
theorem runLifecycle_at_most_once_witness :
    lifecycleScriptKey (fun _ => Except.ok "/real/dir")
      (fun _ => some ("npm", "a", "1.0.0"))
      "/ws/node_modules/a/package.json" none none "postinstall" =
        "npm" ++ ":" ++ "a" ++ "@" ++ "1.0.0" ++ "#" ++ "postinstall" ∧
    lifecycleScriptKey (fun _ => Except.ok "/real/dir")
      (fun _ => some ("npm", "a", "1.0.0"))
      "/ws/node_modules/a/package.json" none none "postinstall" =
      lifecycleScriptKey (fun _ => Except.ok "/real/dir")
        (fun _ => some ("npm", "a", "1.0.0"))
        "/cache/npm/a/1.0.0/package/package.json" none none "postinstall" ∧
    lcCountTrue (lcExec (false, List.replicate 2 LcState.start)
      [0, 1, 0, 1]).2 + (if false = true then 1 else 0) ≤ 1 ∧
    (LcState.done false ∈
        (lcExec (false, List.replicate 2 LcState.start) [0, 1, 0, 1]).2 →
      false = false →
      1 ≤ lcCountTrue (lcExec (false, List.replicate 2 LcState.start)
        [0, 1, 0, 1]).2) := by
  have h := runLifecycle_at_most_once (fun _ => Except.ok "/real/dir")
    (fun _ => some ("npm", "a", "1.0.0"))
    "/ws/node_modules/a/package.json" "/cache/npm/a/1.0.0/package/package.json"
    "/real/dir" "npm" "a" "1.0.0" "postinstall" false 2 [0, 1, 0, 1]
  exact ⟨h.1 rfl (by decide) rfl (by decide),
    h.2.1 rfl rfl (by decide), h.2.2.1, fun hdf _ => h.2.2.2 hdf rfl⟩

/-! ## Tarball cache reuse (part_012 `getCachedTarball`,
`downloadToTempWithChecksum`).

The streaming hasher (`hasherFor`, crypto/sha256 or sha512) enters as
the function `hashFn`; `urlHashHex` is the hex of `sha256.Sum256`
over the URL; `tarFS` maps a path of the tarball cache directory to
the contents of the file there, if any; `tmpCopyOk` is the outcome of
the temp-file copy on the reuse path; `httpResp` is the transport
outcome (status code and body).  Status handling of the UI and the
best-effort `saveTarballToCache` (which does not affect the returned
value) are not modelled. -/

/-- Cache file extension per checksum format (`getCachedTarball`). -/
def extOfFormat : ChecksumFormat → Option String
  | .sha256 => some ".sha256"
  | .sha512 => some ".sha512"
  | .unknown => none

/-- One iteration of the format loop of `getCachedTarball`. -/
def tryCachedFormat (urlHashHex : String → String) (tarDir : String)
    (tarFS : String → Option (List Nat)) (url : String) (cf : ChecksumFormat)
    (format : ChecksumFormat) : Option (String × List Nat) :=
  match extOfFormat format with
  | none => none
  | some ext =>
    let cacheFile := goJoin2 tarDir (urlHashHex url ++ ext ++ ".tgz")
    match tarFS cacheFile with
    | none => none
    | some _ =>
      match tarFS (cacheFile ++ ".checksum") with
      | none => none
      | some checksumData =>
        match normalizeExpectedChecksum checksumData format with
        | Except.error _ => none
        | Except.ok sum =>
          match digestSize cf with
          | none => none
          | some expSize =>
            if sum.length = expSize then some (cacheFile, sum) else none

/-- Embedding of `getCachedTarball`: try the expected format first,
then sha512, then sha256; each try requires the cache file, a sidecar
checksum file that normalizes under the stored format, and the
digest size of the expected format. -/
def getCachedTarball (urlHashHex : String → String) (tarDir : String)
    (tarFS : String → Option (List Nat)) (url : String) (cf : ChecksumFormat) :
    Option (String × List Nat) :=
  match tryCachedFormat urlHashHex tarDir tarFS url cf cf with
  | some r => some r
  | none =>
    match tryCachedFormat urlHashHex tarDir tarFS url cf .sha512 with
    | some r => some r
    | none => tryCachedFormat urlHashHex tarDir tarFS url cf .sha256

/-- Result of `downloadToTempWithChecksum`: whether an HTTP request
was made, and the digest of the produced archive (or the error). -/
structure DownloadResult where
  httpPerformed : Bool
  res : Except String (List Nat)
  deriving Repr

/-- The HTTP path of `downloadToTempWithChecksum`: honor status 200
only, stream the body through the hasher. -/
def downloadViaHttp (hashFn : ChecksumFormat → List Nat → List Nat)
    (httpResp : Except String (Nat × List Nat)) (cf : ChecksumFormat)
    (dsize : Nat) : DownloadResult :=
  match httpResp with
  | Except.error e => ⟨true, Except.error e⟩
  | Except.ok (status, body) =>
    if status ≠ 200 then ⟨true, Except.error "bad status"⟩
    else
      let sum := hashFn cf body
      if sum.length ≠ dsize then ⟨true, Except.error "unexpected digest size"⟩
      else ⟨true, Except.ok sum⟩

/-- The HTTP path always performs an HTTP request. -/
theorem downloadViaHttp_performed (hashFn : ChecksumFormat → List Nat → List Nat)
    (httpResp : Except String (Nat × List Nat)) (cf : ChecksumFormat)
    (dsize : Nat) :
    (downloadViaHttp hashFn httpResp cf dsize).httpPerformed = true := by
  rcases httpResp with e | ⟨status, body⟩
  · rfl
  · unfold downloadViaHttp
    by_cases h : status ≠ 200
    · simp [h]
    · simp only [h, if_false, if_neg]
      split <;> rfl

/-- Embedding of `downloadToTempWithChecksum`: consult the tarball
cache first; when a cached file exists, recompute its digest and
reuse it only when that digest matches the sidecar checksum (and the
temp copy succeeds); otherwise download over HTTP. -/
def downloadToTempWithChecksum (hashFn : ChecksumFormat → List Nat → List Nat)
    (urlHashHex : String → String) (tarDir : String)
    (tarFS : String → Option (List Nat)) (tmpCopyOk : Bool)
    (httpResp : Except String (Nat × List Nat))
    (url : String) (cf : ChecksumFormat) : DownloadResult :=
  match digestSize cf with
  | none => ⟨false, Except.error "unknown checksum format"⟩
  | some dsize =>
    match getCachedTarball urlHashHex tarDir tarFS url cf with
    | some (cachedTarball, cachedSum) =>
      match tarFS cachedTarball with
      | some contents =>
        let gotSum := hashFn cf contents
        if gotSum.length = dsize ∧ constantTimeCompare cachedSum gotSum = 1 then
          if tmpCopyOk then ⟨false, Except.ok cachedSum⟩
          else downloadViaHttp hashFn httpResp cf dsize
        else downloadViaHttp hashFn httpResp cf dsize
      | none => downloadViaHttp hashFn httpResp cf dsize
    | none => downloadViaHttp hashFn httpResp cf dsize

/-- Claim C6, counterexample.  The reuse check compares the recomputed
digest against the sidecar checksum, not against the expected
checksum of the package being fetched: here the cached file and its
sidecar agree (digest `5…5`), the package expects `7…7`, and the
cached tarball is still reused with no HTTP request — refuting
"reuse only if the recomputed digest matches the expected checksum of
the package".  (`CachePut` only detects the mismatch afterwards.) -/
theorem tarballCache_reuse_counterexample :
    (downloadToTempWithChecksum (fun _ data => data) (fun _ => "u") "/t"
        (fun p => if p = "/t/u.sha256.tgz" then some (List.replicate 32 5)
          else if p = "/t/u.sha256.tgz.checksum" then some (List.replicate 32 5)
          else none) true (Except.error "offline")
        "https://registry.npmjs.org/a/-/a-1.0.0.tgz" .sha256).httpPerformed =
      false ∧
    (downloadToTempWithChecksum (fun _ data => data) (fun _ => "u") "/t"
        (fun p => if p = "/t/u.sha256.tgz" then some (List.replicate 32 5)
          else if p = "/t/u.sha256.tgz.checksum" then some (List.replicate 32 5)
          else none) true (Except.error "offline")
        "https://registry.npmjs.org/a/-/a-1.0.0.tgz" .sha256).res =
      Except.ok (List.replicate 32 5) ∧
    normalizeExpectedChecksum (List.replicate 32 7) .sha256 =
      Except.ok (List.replicate 32 7) ∧
    (List.replicate 32 5 : List Nat) ≠ List.replicate 32 7 :=
  ⟨rfl, rfl, rfl, by decide⟩

/-- Claim C6 as amended.  When a tarball-cache file keyed by
`sha256(url)` exists, its digest is recomputed from the file
contents, and the cached tarball is reused without an HTTP request
only if that recomputed digest matches the checksum recorded in the
cache's sidecar file (normalized); the package's expected checksum is
enforced afterwards by `CachePut`. -/
theorem tarballCache_reuse_matches_sidecar
    (hashFn : ChecksumFormat → List Nat → List Nat)
    (urlHashHex : String → String) (tarDir : String)
    (tarFS : String → Option (List Nat)) (tmpCopyOk : Bool)
    (httpResp : Except String (Nat × List Nat)) (url : String)
    (cf : ChecksumFormat) (s : List Nat)
    (hnohttp : (downloadToTempWithChecksum hashFn urlHashHex tarDir tarFS
        tmpCopyOk httpResp url cf).httpPerformed = false)
    (hok : (downloadToTempWithChecksum hashFn urlHashHex tarDir tarFS
        tmpCopyOk httpResp url cf).res = Except.ok s) :
    ∃ file, getCachedTarball urlHashHex tarDir tarFS url cf = some (file, s) ∧
      ∃ contents, tarFS file = some contents ∧
        constantTimeCompare s (hashFn cf contents) = 1 := by
  unfold downloadToTempWithChecksum at hnohttp hok
  rcases hds : digestSize cf with _ | dsize
  · rw [hds] at hok
    cases hok
  · rw [hds] at hnohttp hok
    dsimp only at hnohttp hok
    rcases hct : getCachedTarball urlHashHex tarDir tarFS url cf with _ |
        ⟨file, cachedSum⟩
    · rw [hct] at hnohttp
      dsimp only at hnohttp
      rw [downloadViaHttp_performed] at hnohttp
      cases hnohttp
    · rw [hct] at hnohttp hok
      dsimp only at hnohttp hok
      rcases hfs : tarFS file with _ | contents
      · rw [hfs] at hnohttp
        dsimp only at hnohttp
        rw [downloadViaHttp_performed] at hnohttp
        cases hnohttp
      · rw [hfs] at hnohttp hok
        dsimp only at hnohttp hok
        by_cases hcmp : (hashFn cf contents).length = dsize ∧
            constantTimeCompare cachedSum (hashFn cf contents) = 1
        · rw [if_pos hcmp] at hnohttp hok
          cases htmp : tmpCopyOk with
          | false =>
            rw [htmp] at hnohttp
            simp only [Bool.false_eq_true, if_false] at hnohttp
            rw [downloadViaHttp_performed] at hnohttp
            cases hnohttp
          | true =>
            rw [htmp] at hok
            simp only [if_true] at hok
            cases hok
            exact ⟨file, rfl, contents, hfs, hcmp.2⟩
        · rw [if_neg hcmp] at hnohttp
          rw [downloadViaHttp_performed] at hnohttp
          cases hnohttp

/-- Closed instance of `tarballCache_reuse_matches_sidecar`: in the
reuse scenario of the counterexample, the returned digest is exactly
the sidecar checksum of the cached file. -/
theorem tarballCache_reuse_matches_sidecar_witness :
    ∃ file, getCachedTarball (fun _ => "u") "/t"
        (fun p => if p = "/t/u.sha256.tgz" then some (List.replicate 32 5)
          else if p = "/t/u.sha256.tgz.checksum" then some (List.replicate 32 5)
          else none)
        "https://registry.npmjs.org/a/-/a-1.0.0.tgz" .sha256 =
        some (file, List.replicate 32 5) ∧
      ∃ contents, (fun p => if p = "/t/u.sha256.tgz" then
            some (List.replicate (α := Nat) 32 5)
          else if p = "/t/u.sha256.tgz.checksum" then some (List.replicate 32 5)
          else none) file = some contents ∧
        constantTimeCompare (List.replicate 32 5)
          ((fun _ data => data) ChecksumFormat.sha256 contents) = 1 :=
  tarballCache_reuse_matches_sidecar (fun _ data => data) (fun _ => "u") "/t"
    (fun p => if p = "/t/u.sha256.tgz" then some (List.replicate 32 5)
      else if p = "/t/u.sha256.tgz.checksum" then some (List.replicate 32 5)
      else none) true (Except.error "offline")
    "https://registry.npmjs.org/a/-/a-1.0.0.tgz" .sha256
    (List.replicate 32 5) rfl rfl

/-! ## Tar extraction (part_012 `extractTarReadSeeker`,
`determineTarRoot`, `trimTarPath`, `firstPathComponent`, `depth`,
`isMetadataHeader`).

A tar archive is a list of entries; the filesystem written by the
extractor is an association list from absolute path to node, rooted
at the staging destination (whose ancestors live outside the
modelled subtree).  Lookups are by literal path: resolution of
intermediate symlinks created by earlier entries is not modelled, nor
are permission bits; neither affects the claims proved here.  The
depth sort of `determineTarRoot` uses `sort.Slice` (an unspecified
sorted permutation); the embedding uses a stable insertion sort,
which realizes that contract. -/

/-- Tar entry type flags used by the extractor. -/
inductive TarType where
  | dir
  | reg
  | regA
  | symlink
  | hardlink
  | xHeader
  | xGlobalHeader
  | gnuLongName
  | gnuLongLink
  | other
  deriving Repr, DecidableEq

/-- One tar entry: name, type, link target and file contents. -/
structure TarEntry where
  name : String
  typeflag : TarType
  linkname : String
  content : String
  deriving Repr

/-- Embedding of `isMetadataHeader`: pax headers and GNU long
name/link headers. -/
def isMetadataHeader : TarType → Bool
  | .xHeader => true
  | .xGlobalHeader => true
  | .gnuLongName => true
  | .gnuLongLink => true
  | _ => false

/-- Embedding of `trimTarPath`: strip the root prefix; `none` is the
`false` of the Go pair. -/
def trimTarPath (normalized root : String) : Option String :=
  if root = "" then some normalized
  else if normalized = root then some ""
  else if strHasPre (root ++ "/") normalized then
    some (strTrimPre normalized (root ++ "/"))
  else none

/-- Embedding of `firstPathComponent`. -/
def firstPathComponent (p : String) : String :=
  String.mk (p.toList.takeWhile (fun c => c ≠ '/'))

/-- Embedding of `depth`: number of slashes plus one, zero for the
empty path. -/
def tarDepth (p : String) : Nat :=
  if p = "" then 0 else (p.toList.filter (fun c => c = '/')).length + 1

/-- First scanning pass of `determineTarRoot`: collect the set of
first path components and the entries whose base name is
`package.json`, in order. -/
def rootScanAux (acc : List String × List String) :
    List TarEntry → Except String (List String × List String)
  | [] => Except.ok acc
  | e :: rest =>
    if e.name = "" then rootScanAux acc rest
    else if isMetadataHeader e.typeflag then rootScanAux acc rest
    else
      match normalizeTarPath e.name with
      | Except.error err => Except.error err
      | Except.ok normName =>
        if normName = "" then rootScanAux acc rest
        else
          let comp := firstPathComponent normName
          let acc1 := if comp ≠ "" ∧ comp ∉ acc.1 then
              (acc.1 ++ [comp], acc.2) else acc
          let acc2 := if goBase normName = "package.json" then
              (acc1.1, acc1.2 ++ [normName]) else acc1
          rootScanAux acc2 rest

/-- Stable insertion by archive-path depth. -/
def insertByDepth (x : String) : List String → List String
  | [] => [x]
  | y :: t => if tarDepth x < tarDepth y then x :: y :: t else y :: insertByDepth x t

/-- Stable insertion sort by archive-path depth (model of the
`sort.Slice` call). -/
def sortByDepth : List String → List String
  | [] => []
  | x :: t => insertByDepth x (sortByDepth t)

/-- Second scanning pass of `determineTarRoot`: does some entry under
the prefix trim to exactly `package.json`? -/
def prefixScan (pre : String) : List TarEntry → Except String Bool
  | [] => Except.ok false
  | e :: rest =>
    if e.name = "" then prefixScan pre rest
    else if isMetadataHeader e.typeflag then prefixScan pre rest
    else
      match normalizeTarPath e.name with
      | Except.error err => Except.error err
      | Except.ok normName =>
        if normName = "" then prefixScan pre rest
        else if strHasPre (pre ++ "/") normName ∧
            strTrimPre normName (pre ++ "/") = "package.json" then
          Except.ok true
        else prefixScan pre rest

/-- Embedding of `determineTarRoot`: the directory of a minimum-depth
`package.json`, else the single top-level component that contains a
`package.json`, else the malformed-archive error. -/
def determineTarRoot (entries : List TarEntry) : Except String String :=
  match rootScanAux ([], []) entries with
  | Except.error e => Except.error e
  | Except.ok (topComps, pkgPaths) =>
    if pkgPaths ≠ [] then
      let sorted := sortByDepth pkgPaths
      let dir := goDir (sorted.headD "")
      if dir = "." then Except.ok "" else Except.ok dir
    else if topComps.length = 1 then
      let pre := topComps.headD ""
      match prefixScan pre entries with
      | Except.error e => Except.error e
      | Except.ok true => Except.ok pre
      | Except.ok false => Except.error "package.json not found in archive"
    else Except.error "package.json not found in archive"

/-- A filesystem node: directory, regular file, or symlink. -/
inductive FsNode where
  | dir
  | file (content : String)
  | symlink (target : String)
  deriving Repr, DecidableEq

/-- Remove the binding of a path. -/
def fsRemoveKey (fs : List (String × FsNode)) (p : String) :
    List (String × FsNode) :=
  fs.filter (fun kv => kv.1 ≠ p)

/-- Bind a path to a node, replacing any previous binding. -/
def fsSet (fs : List (String × FsNode)) (p : String) (n : FsNode) :
    List (String × FsNode) :=
  (p, n) :: fsRemoveKey fs p

/-- Path lookup (Go map indexing; keys are unique). -/
def fsLookup : List (String × FsNode) → String → Option FsNode
  | [], _ => none
  | kv :: rest, p => if kv.1 = p then some kv.2 else fsLookup rest p

/-- Whether a directory has entries strictly below it. -/
def fsHasChild (fs : List (String × FsNode)) (p : String) : Bool :=
  fs.any (fun kv => strHasPre (p ++ "/") kv.1)

/-- Go `os.Remove` with the error ignored (`_ = os.Remove(target)`):
deletes files, symlinks and empty directories; a non-empty directory
stays. -/
def fsOsRemove (fs : List (String × FsNode)) (p : String) :
    List (String × FsNode) :=
  match fsLookup fs p with
  | none => fs
  | some FsNode.dir => if fsHasChild fs p then fs else fsRemoveKey fs p
  | some _ => fsRemoveKey fs p

/-- Split a character list at a separator character. -/
def splitOnCharAux (sep : Char) (acc : List Char) : List Char → List String
  | [] => [String.mk acc.reverse]
  | c :: rest =>
    if c = sep then String.mk acc.reverse :: splitOnCharAux sep [] rest
    else splitOnCharAux sep (c :: acc) rest

/-- Split a string at a separator character (Go `strings.Split` with a
one-character separator). -/
def splitOnChar (sep : Char) (s : String) : List String :=
  splitOnCharAux sep [] s.toList

/-- Split a relative path into its slash-separated components. -/
def splitSlash (s : String) : List String :=
  splitOnChar '/' s

/-- The component path of a target below the destination root; `none`
when the target does not lie below the root (unreachable for
`secureJoin`-accepted targets). -/
def relComponents (absDest target : String) : Option (List String) :=
  if target = absDest then some []
  else if strHasPre (absDest ++ "/") target then
    some (splitSlash (strTrimPre target (absDest ++ "/")))
  else none

/-- Go `os.MkdirAll` below an existing base directory: create each
missing component as a directory, fail when a component exists as a
non-directory. -/
def mkdirAllFrom (fs : List (String × FsNode)) (base : String) :
    List String → Except String (List (String × FsNode))
  | [] => Except.ok fs
  | c :: rest =>
    match fsLookup fs (base ++ "/" ++ c) with
    | some FsNode.dir => mkdirAllFrom fs (base ++ "/" ++ c) rest
    | some _ => Except.error "mkdir: not a directory"
    | none =>
      mkdirAllFrom (fsSet fs (base ++ "/" ++ c) FsNode.dir) (base ++ "/" ++ c) rest

/-- `os.MkdirAll` of an absolute target below the destination root. -/
def mkdirAllAbs (fs : List (String × FsNode)) (absDest target : String) :
    Except String (List (String × FsNode)) :=
  match relComponents absDest target with
  | none => Except.error "mkdir outside destination"
  | some comps => mkdirAllFrom fs absDest comps

/-- Extractor loop state: the staged filesystem and the
`extractedPkgJSON` flag. -/
structure ExtractSt where
  fs : List (String × FsNode)
  pkg : Bool

/-- Processing of one tar entry by `extractTarReadSeeker`:
normalization, root trimming, `secureJoin` confinement, then the
per-type policy. -/
def processEntry (cwd absDest root : String) (st : ExtractSt) (e : TarEntry) :
    Except String ExtractSt :=
  if e.name = "" then Except.ok st
  else if isMetadataHeader e.typeflag then Except.ok st
  else
    match normalizeTarPath e.name with
    | Except.error err => Except.error err
    | Except.ok normName =>
      if normName = "" then Except.ok st
      else
        match trimTarPath normName root with
        | none => Except.ok st
        | some trimmed =>
          if trimmed = "" then Except.ok st
          else
            match secureJoin cwd absDest trimmed with
            | Except.error err => Except.error err
            | Except.ok target =>
              match e.typeflag with
              | TarType.dir =>
                match mkdirAllAbs st.fs absDest target with
                | Except.error err => Except.error err
                | Except.ok fs2 => Except.ok ⟨fs2, st.pkg⟩
              | TarType.reg =>
                match mkdirAllAbs st.fs absDest (goDir target) with
                | Except.error err => Except.error err
                | Except.ok fs2 =>
                  match fsLookup fs2 target with
                  | some FsNode.dir => Except.error "create file: is a directory"
                  | _ =>
                    Except.ok ⟨fsSet fs2 target (FsNode.file e.content),
                      st.pkg || decide (trimmed = "package.json")⟩
              | TarType.regA =>
                match mkdirAllAbs st.fs absDest (goDir target) with
                | Except.error err => Except.error err
                | Except.ok fs2 =>
                  match fsLookup fs2 target with
                  | some FsNode.dir => Except.error "create file: is a directory"
                  | _ =>
                    Except.ok ⟨fsSet fs2 target (FsNode.file e.content),
                      st.pkg || decide (trimmed = "package.json")⟩
              | TarType.symlink =>
                if goIsAbs e.linkname then
                  Except.error "absolute symlink rejected"
                else
                  match mkdirAllAbs st.fs absDest (goDir target) with
                  | Except.error err => Except.error err
                  | Except.ok fs2 =>
                    let fs3 := fsOsRemove fs2 target
                    match fsLookup fs3 target with
                    | some _ => Except.error "symlink: file exists"
                    | none =>
                      Except.ok ⟨fsSet fs3 target (FsNode.symlink e.linkname),
                        st.pkg⟩
              | TarType.hardlink =>
                match normalizeTarPath e.linkname with
                | Except.error err => Except.error err
                | Except.ok linkNorm =>
                  match trimTarPath linkNorm root with
                  | none => Except.error "hardlink target outside package root"
                  | some linkTrimmed =>
                    if linkTrimmed = "" then
                      Except.error "hardlink target outside package root"
                    else
                      match secureJoin cwd absDest linkTrimmed with
                      | Except.error err => Except.error err
                      | Except.ok linkTarget =>
                        match mkdirAllAbs st.fs absDest (goDir target) with
                        | Except.error err => Except.error err
                        | Except.ok fs2 =>
                          let fs3 := fsOsRemove fs2 target
                          match fsLookup fs3 target with
                          | some _ => Except.error "hardlink: file exists"
                          | none =>
                            match fsLookup fs3 linkTarget with
                            | some (FsNode.file c) =>
                              Except.ok ⟨fsSet fs3 target (FsNode.file c), st.pkg⟩
                            | some (FsNode.symlink t) =>
                              Except.ok ⟨fsSet fs3 target (FsNode.symlink t), st.pkg⟩
                            | some FsNode.dir =>
                              Except.error "hardlink: not permitted"
                            | none => Except.error "hardlink: no such file"
              | _ => Except.ok st

/-- The entry loop of `extractTarReadSeeker`. -/
def processEntries (cwd absDest root : String) (st : ExtractSt) :
    List TarEntry → Except String ExtractSt
  | [] => Except.ok st
  | e :: rest =>
    match processEntry cwd absDest root st e with
    | Except.error err => Except.error err
    | Except.ok st1 => processEntries cwd absDest root st1 rest

/-- Embedding of the driver of `extractTarReadSeeker`: determine the
root prefix, create the fresh `package` staging subdirectory, process
every entry, and fail unless a `package.json` regular file was
extracted. -/
def extractTarEntries (cwd destDir : String) (entries : List TarEntry) :
    Except String (List (String × FsNode)) :=
  match determineTarRoot entries with
  | Except.error e => Except.error e
  | Except.ok root =>
    let absDest := goAbs cwd (goJoin2 destDir "package")
    match processEntries cwd absDest root ⟨[(absDest, FsNode.dir)], false⟩ entries with
    | Except.error e => Except.error e
    | Except.ok st =>
      if st.pkg then Except.ok st.fs
      else Except.error "package.json not found in archive"

/-- Lookup after removing a key. -/
theorem fsLookup_fsRemoveKey (fs : List (String × FsNode)) (p q : String) :
    fsLookup (fsRemoveKey fs q) p = if p = q then none else fsLookup fs p := by
  induction fs with
  | nil =>
    by_cases hpq : p = q <;> simp [hpq, fsRemoveKey, fsLookup]
  | cons kv rest ih =>
    rcases kv with ⟨k, v⟩
    by_cases hk : k = q
    · have hstep : fsRemoveKey ((k, v) :: rest) q = fsRemoveKey rest q := by
        simp [fsRemoveKey, List.filter_cons, hk]
      rw [hstep, ih]
      by_cases hpq : p = q
      · simp [hpq]
      · have hkp : ¬k = p := fun hc => hpq (hc ▸ hk)
        rw [if_neg hpq, if_neg hpq]
        simp [fsLookup, hkp]
    · have hstep : fsRemoveKey ((k, v) :: rest) q = (k, v) :: fsRemoveKey rest q := by
        simp [fsRemoveKey, List.filter_cons, hk]
      rw [hstep]
      by_cases hkp : k = p
      · subst hkp
        have hpq : ¬k = q := hk
        simp [fsLookup, hpq]
      · simp only [fsLookup, if_neg hkp]
        rw [ih]

/-- Lookup after binding a key. -/
theorem fsLookup_fsSet (fs : List (String × FsNode)) (p q : String) (n : FsNode) :
    fsLookup (fsSet fs q n) p = if p = q then some n else fsLookup fs p := by
  by_cases hpq : p = q
  · subst hpq
    simp [fsSet, fsLookup]
  · have h2 := fsLookup_fsRemoveKey fs p q
    rw [if_neg hpq] at h2
    have hqp : ¬q = p := fun hc => hpq hc.symm
    simp [fsSet, fsLookup, hqp, hpq, h2]

/-- Removal via `os.Remove` only affects the removed path. -/
theorem fsLookup_fsOsRemove_ne (fs : List (String × FsNode)) (p q : String)
    (h : p ≠ q) : fsLookup (fsOsRemove fs q) p = fsLookup fs p := by
  have hrm := fsLookup_fsRemoveKey fs p q
  rw [if_neg h] at hrm
  unfold fsOsRemove
  rcases hq : fsLookup fs q with _ | n
  · rfl
  · cases n
    · dsimp only
      split
      · rfl
      · exact hrm
    · exact hrm
    · exact hrm

/-- `MkdirAll` never removes an existing binding. -/
theorem mkdirAllFrom_mono (comps : List String) (fs fs' : List (String × FsNode))
    (base : String) (p : String)
    (h : mkdirAllFrom fs base comps = Except.ok fs')
    (hp : (fsLookup fs p).isSome = true) :
    (fsLookup fs' p).isSome = true := by
  induction comps generalizing fs base with
  | nil =>
    unfold mkdirAllFrom at h
    cases h
    exact hp
  | cons c rest ih =>
    unfold mkdirAllFrom at h
    rcases hl : fsLookup fs (base ++ "/" ++ c) with _ | n
    · rw [hl] at h
      try dsimp only at h
      refine ih (fsSet fs (base ++ "/" ++ c) FsNode.dir) _ h ?_
      rw [fsLookup_fsSet]
      split
      · rfl
      · exact hp
    · rw [hl] at h
      try dsimp only at h
      cases n
      · exact ih fs _ h hp
      · cases h
      · cases h

/-- `mkdirAllAbs` never removes an existing binding. -/
theorem mkdirAllAbs_mono (fs fs' : List (String × FsNode))
    (absDest target p : String)
    (h : mkdirAllAbs fs absDest target = Except.ok fs')
    (hp : (fsLookup fs p).isSome = true) :
    (fsLookup fs' p).isSome = true := by
  unfold mkdirAllAbs at h
  rcases hrc : relComponents absDest target with _ | comps
  · rw [hrc] at h
    cases h
  · rw [hrc] at h
    exact mkdirAllFrom_mono comps fs fs' absDest p h hp

/-- Presence survives a remove-then-bind at any path. -/
theorem present_after_set_remove (fs : List (String × FsNode))
    (p q : String) (n : FsNode)
    (hp : (fsLookup fs p).isSome = true) :
    (fsLookup (fsSet (fsOsRemove fs q) q n) p).isSome = true := by
  rw [fsLookup_fsSet]
  by_cases hpq : p = q
  · rw [if_pos hpq]
    rfl
  · rw [if_neg hpq, fsLookup_fsOsRemove_ne fs p q hpq]
    exact hp

/-- Presence survives a bind at any path. -/
theorem present_after_set (fs : List (String × FsNode))
    (p q : String) (n : FsNode)
    (hp : (fsLookup fs p).isSome = true) :
    (fsLookup (fsSet fs q n) p).isSome = true := by
  rw [fsLookup_fsSet]
  split
  · rfl
  · exact hp

/-- Processing one entry never removes an existing binding: every
removal before a link creation is followed by a creation at the same
path or a failure of the whole extraction. -/
theorem processEntry_mono (cwd absDest root : String) (st st' : ExtractSt)
    (e : TarEntry) (p : String)
    (h : processEntry cwd absDest root st e = Except.ok st')
    (hp : (fsLookup st.fs p).isSome = true) :
    (fsLookup st'.fs p).isSome = true := by
  unfold processEntry at h
  try dsimp only at h
  repeat' split at h
  all_goals try dsimp only at h
  all_goals repeat' split at h
  all_goals cases h
  all_goals first
    | exact hp
    | exact mkdirAllAbs_mono _ _ _ _ _ (by assumption) hp
    | exact present_after_set _ _ _ _ (mkdirAllAbs_mono _ _ _ _ _ (by assumption) hp)
    | exact present_after_set_remove _ _ _ _
        (mkdirAllAbs_mono _ _ _ _ _ (by assumption) hp)

/-- Which entries can raise the `extractedPkgJSON` flag: only a
regular-file entry whose root-trimmed path is exactly
`package.json`. -/
theorem processEntry_pkg (cwd absDest root : String) (st st' : ExtractSt)
    (e : TarEntry)
    (h : processEntry cwd absDest root st e = Except.ok st')
    (h1 : st'.pkg = true) :
    st.pkg = true ∨
      ((e.typeflag = TarType.reg ∨ e.typeflag = TarType.regA) ∧
        ∃ norm, normalizeTarPath e.name = Except.ok norm ∧
          trimTarPath norm root = some "package.json") := by
  unfold processEntry at h
  try dsimp only at h
  repeat' split at h
  all_goals cases h
  all_goals try (exact Or.inl h1)
  all_goals
    rcases Bool.or_eq_true_iff.mp h1 with h2 | h3
  all_goals try (exact Or.inl h2)
  all_goals have h4 := of_decide_eq_true h3
  all_goals subst h4
  all_goals right
  all_goals refine ⟨?_, _, by assumption, by assumption⟩
  all_goals first
    | exact Or.inl (by assumption)
    | exact Or.inr (by assumption)

/-- A run that raises the flag from false leaves a node at the
confined `package.json` path. -/
theorem processEntry_sets_pkg (cwd absDest root : String) (st st' : ExtractSt)
    (e : TarEntry)
    (h : processEntry cwd absDest root st e = Except.ok st')
    (h0 : st.pkg = false) (h1 : st'.pkg = true) :
    ∃ p, secureJoin cwd absDest "package.json" = Except.ok p ∧
      (fsLookup st'.fs p).isSome = true := by
  unfold processEntry at h
  try dsimp only at h
  repeat' split at h
  all_goals cases h
  all_goals try (rw [h0] at h1; cases h1)
  all_goals
    rcases Bool.or_eq_true_iff.mp h1 with h2 | h3
  all_goals try (rw [h0] at h2; cases h2)
  all_goals have h4 := of_decide_eq_true h3
  all_goals subst h4
  all_goals refine ⟨_, by assumption, ?_⟩
  all_goals rw [fsLookup_fsSet, if_pos rfl]
  all_goals rfl

/-- The package-json invariant of the extraction loop: a raised flag
means the confined `package.json` path is populated. -/
def pkgInv (cwd absDest : String) (st : ExtractSt) : Prop :=
  st.pkg = true → ∃ p, secureJoin cwd absDest "package.json" = Except.ok p ∧
    (fsLookup st.fs p).isSome = true

/-- One entry preserves the package-json invariant. -/
theorem processEntry_inv (cwd absDest root : String) (st st' : ExtractSt)
    (e : TarEntry)
    (h : processEntry cwd absDest root st e = Except.ok st')
    (hinv : pkgInv cwd absDest st) : pkgInv cwd absDest st' := by
  intro h1
  cases h0 : st.pkg with
  | true =>
    rcases hinv h0 with ⟨p, hs, hpres⟩
    exact ⟨p, hs, processEntry_mono cwd absDest root st st' e p h hpres⟩
  | false =>
    exact processEntry_sets_pkg cwd absDest root st st' e h h0 h1

/-- The whole entry loop preserves the package-json invariant. -/
theorem processEntries_inv (cwd absDest root : String) (l : List TarEntry)
    (st st' : ExtractSt)
    (h : processEntries cwd absDest root st l = Except.ok st')
    (hinv : pkgInv cwd absDest st) : pkgInv cwd absDest st' := by
  induction l generalizing st with
  | nil =>
    unfold processEntries at h
    cases h
    exact hinv
  | cons e rest ih =>
    unfold processEntries at h
    rcases hstep : processEntry cwd absDest root st e with err | st1
    · rw [hstep] at h
      cases h
    · rw [hstep] at h
      exact ih st1 h (processEntry_inv cwd absDest root st st1 e hstep hinv)

/-- The flag at the end of the loop comes from some entry of the
list. -/
theorem processEntries_pkg (cwd absDest root : String) (l : List TarEntry)
    (st st' : ExtractSt)
    (h : processEntries cwd absDest root st l = Except.ok st')
    (h1 : st'.pkg = true) :
    st.pkg = true ∨
      ∃ e ∈ l, (e.typeflag = TarType.reg ∨ e.typeflag = TarType.regA) ∧
        ∃ norm, normalizeTarPath e.name = Except.ok norm ∧
          trimTarPath norm root = some "package.json" := by
  induction l generalizing st with
  | nil =>
    unfold processEntries at h
    cases h
    exact Or.inl h1
  | cons e rest ih =>
    unfold processEntries at h
    rcases hstep : processEntry cwd absDest root st e with err | st1
    · rw [hstep] at h
      cases h
    · rw [hstep] at h
      rcases ih st1 h with hfl | ⟨e2, he2, hprop⟩
      · rcases processEntry_pkg cwd absDest root st st1 e hstep hfl with hl | hr
        · exact Or.inl hl
        · exact Or.inr ⟨e, List.mem_cons_self _ _, hr⟩
      · exact Or.inr ⟨e2, List.mem_cons_of_mem _ he2, hprop⟩

/-- Claim C5.  A successful extraction implies that a regular-file
entry whose root-trimmed path is exactly `package.json` was
extracted (otherwise the extractor fails with the malformed-archive
error), and the finalized tree contains a node at the confined
`package.json` path at its root — so success of `CachePut` implies
the invariant for that key. -/
theorem extraction_requires_package_json (cwd destDir : String)
    (entries : List TarEntry) (fs : List (String × FsNode))
    (h : extractTarEntries cwd destDir entries = Except.ok fs) :
    (∃ root, determineTarRoot entries = Except.ok root ∧
      ∃ e ∈ entries, (e.typeflag = TarType.reg ∨ e.typeflag = TarType.regA) ∧
        ∃ norm, normalizeTarPath e.name = Except.ok norm ∧
          trimTarPath norm root = some "package.json") ∧
    (∃ p n, secureJoin cwd (goAbs cwd (goJoin2 destDir "package"))
        "package.json" = Except.ok p ∧
      fsLookup fs p = some n) := by
  unfold extractTarEntries at h
  rcases hroot : determineTarRoot entries with err | root
  · rw [hroot] at h
    cases h
  · rw [hroot] at h
    dsimp only at h
    rcases hfold : processEntries cwd (goAbs cwd (goJoin2 destDir "package"))
        root ⟨[(goAbs cwd (goJoin2 destDir "package"), FsNode.dir)], false⟩
        entries with err | st
    · rw [hfold] at h
      cases h
    · rw [hfold] at h
      dsimp only at h
      cases hpkg : st.pkg with
      | false =>
        rw [hpkg] at h
        cases h
      | true =>
        rw [hpkg] at h
        simp only [if_true] at h
        cases h
        constructor
        · refine ⟨root, rfl, ?_⟩
          rcases processEntries_pkg _ _ _ _ _ _ hfold hpkg with hl | hr
          · cases hl
          · exact hr
        · have hinv := processEntries_inv _ _ _ _ _ _ hfold
            (by intro hc; cases hc)
          rcases hinv hpkg with ⟨p, hs, hpres⟩
          rcases Option.isSome_iff_exists.mp hpres with ⟨n, hn⟩
          exact ⟨p, n, hs, hn⟩

/-- Closed instance of `extraction_requires_package_json`: a one-entry
archive `package/package.json` extracts successfully, the entry is the
required regular file, and the staged tree holds
`/stage/package/package.json`. -/
theorem extraction_requires_package_json_witness :
    (∃ root, determineTarRoot
        [⟨"package/package.json", TarType.reg, "", "x"⟩] = Except.ok root ∧
      ∃ e ∈ [(⟨"package/package.json", TarType.reg, "", "x"⟩ : TarEntry)],
        (e.typeflag = TarType.reg ∨ e.typeflag = TarType.regA) ∧
        ∃ norm, normalizeTarPath e.name = Except.ok norm ∧
          trimTarPath norm root = some "package.json") ∧
    (∃ p n, secureJoin "/" (goAbs "/" (goJoin2 "/stage" "package"))
        "package.json" = Except.ok p ∧
      fsLookup [("/stage/package/package.json", FsNode.file "x"),
        ("/stage/package", FsNode.dir)] p = some n) :=
  extraction_requires_package_json "/" "/stage"
    [⟨"package/package.json", TarType.reg, "", "x"⟩]
    [("/stage/package/package.json", FsNode.file "x"),
      ("/stage/package", FsNode.dir)] (by rfl)

/-! ## Semver (Masterminds/semver v3) and `Npm_Resolve`
(registry/npm.go).

`Npm_Resolve` parses each version key of the registry response with
`semver.NewVersion`, filters by the constraint, sorts ascending with
`sort.Sort` and walks the sorted versions backward, returning the
metadata found under the map key `version.String()`.  The library is
embedded below: the version record, the anchored parsing regex
`v?([0-9]+)(\.[0-9]+)?(\.[0-9]+)?(-pre)?(\+meta)?`, the canonical
renderer, and the precedence comparison.  The constraint enters as an
opaque predicate, which is all `Constraints.Check` exposes to the
resolver.  Go compares prerelease identifiers as byte strings; the
parser admits ASCII only, where Lean's string order coincides. -/

/-- A parsed Masterminds version: numeric core plus the raw
prerelease and metadata strings. -/
structure SemVer where
  major : Nat
  minor : Nat
  patch : Nat
  pre : String
  metadata : String
  deriving Repr, DecidableEq

/-- ASCII digit. -/
def isDigitChar (c : Char) : Bool := '0' ≤ c ∧ c ≤ '9'

/-- Prerelease and metadata identifier characters
`[0-9A-Za-z-]`. -/
def isIdentChar (c : Char) : Bool :=
  isDigitChar c ∨ ('a' ≤ c ∧ c ≤ 'z') ∨ ('A' ≤ c ∧ c ≤ 'Z') ∨ c = '-'

/-- Decimal value of a digit list. -/
def natOfDigits (l : List Char) : Nat :=
  l.foldl (fun acc c => acc * 10 + (c.toNat - 48)) 0

/-- Go `strconv.ParseUint(s, 10, 64)`: nonempty digit strings whose
value fits in 64 bits. -/
def goParseUint64 (s : String) : Option Nat :=
  if s ≠ "" ∧ s.toList.all isDigitChar ∧ natOfDigits s.toList < 2 ^ 64 then
    some (natOfDigits s.toList)
  else none

/-- Dot-separated identifier groups are nonempty and drawn from the
identifier class. -/
def validPreSegs (segs : List String) : Bool :=
  segs.all (fun seg => seg ≠ "" ∧ seg.toList.all isIdentChar)

/-- An optional regex group `\.[0-9]+`: the digits and the rest. -/
def parseDotNum : List Char → Option (List Char × List Char)
  | '.' :: r =>
    let d := r.takeWhile isDigitChar
    if d = [] then none else some (d, r.dropWhile isDigitChar)
  | _ => none

/-- Numbers and trailing groups of `semver.NewVersion` after the
numeric core was cut: prerelease after `-` (up to `+`), metadata
after `+`, nothing else. -/
def semverFinish (majD : List Char) (minD patD : Option (List Char))
    (rest : List Char) : Option SemVer :=
  let preRes : Option (String × List Char) :=
    match rest with
    | '-' :: r =>
      let preChars := r.takeWhile (fun c => c ≠ '+')
      if validPreSegs (splitOnChar '.' (String.mk preChars)) then
        some (String.mk preChars, r.dropWhile (fun c => c ≠ '+'))
      else none
    | _ => some ("", rest)
  match preRes with
  | none => none
  | some (pre, rest2) =>
    let metaRes : Option String :=
      match rest2 with
      | [] => some ""
      | '+' :: r2 =>
        if validPreSegs (splitOnChar '.' (String.mk r2)) then
          some (String.mk r2)
        else none
      | _ => none
    match metaRes with
    | none => none
    | some md =>
      match goParseUint64 (String.mk majD) with
      | none => none
      | some major =>
        match minD with
        | none => some ⟨major, 0, 0, pre, md⟩
        | some d1 =>
          match goParseUint64 (String.mk d1) with
          | none => none
          | some minor =>
            match patD with
            | none => some ⟨major, minor, 0, pre, md⟩
            | some d2 =>
              match goParseUint64 (String.mk d2) with
              | none => none
              | some patch => some ⟨major, minor, patch, pre, md⟩

/-- Embedding of `semver.NewVersion`: the anchored Masterminds regex
with optional `v` prefix, optional minor and patch, optional
prerelease and metadata; absent minor and patch default to zero. -/
def semverParse (s : String) : Option SemVer :=
  let l := s.toList
  let l1 := if l.headD ' ' = 'v' then l.tail else l
  let majD := l1.takeWhile isDigitChar
  let r1 := l1.dropWhile isDigitChar
  if majD = [] then none
  else
    match r1 with
    | '.' :: _ =>
      match parseDotNum r1 with
      | none => none
      | some (minD, r2) =>
        match r2 with
        | '.' :: _ =>
          match parseDotNum r2 with
          | none => none
          | some (patD, r3) => semverFinish majD (some minD) (some patD) r3
        | _ => semverFinish majD (some minD) none r2
    | _ => semverFinish majD none none r1

/-- Embedding of `Version.String()`: `major.minor.patch` with
`-pre` and `+metadata` when present. -/
def semverRender (v : SemVer) : String :=
  Nat.repr v.major ++ "." ++ Nat.repr v.minor ++ "." ++ Nat.repr v.patch ++
    (if v.pre ≠ "" then "-" ++ v.pre else "") ++
    (if v.metadata ≠ "" then "+" ++ v.metadata else "")

/-- Embedding of `comparePrePart`: empty identifiers sort lowest,
numbers below strings, numbers by value (ties fall to `-1`), strings
byte-lexicographically. -/
def comparePrePart (s o : String) : Int :=
  if s = o then 0
  else if s = "" then (if o ≠ "" then -1 else 1)
  else if o = "" then (if s ≠ "" then 1 else -1)
  else
    match goParseUint64 o, goParseUint64 s with
    | none, none => if o < s then 1 else -1
    | none, some _ => -1
    | some _, none => 1
    | some oi, some si => if oi < si then 1 else -1

/-- The tail of `comparePrerelease` once the first list of parts is
exhausted: the remaining parts of the other side are each compared
against the empty padding identifier. -/
def comparePreNil : List String → Int
  | [] => 0
  | q :: qt =>
    let d := comparePrePart "" q
    if d ≠ 0 then d else comparePreNil qt

/-- Embedding of `comparePrerelease` after splitting on dots: compare
part-wise, padding the shorter side with empty identifiers. -/
def comparePreList : List String → List String → Int
  | [], l => comparePreNil l
  | p :: pt, [] =>
    let d := comparePrePart p ""
    if d ≠ 0 then d else comparePreList pt []
  | p :: pt, q :: qt =>
    let d := comparePrePart p q
    if d ≠ 0 then d else comparePreList pt qt

/-- Embedding of `compareSegment`. -/
def compareSegment (v o : Nat) : Int :=
  if v < o then -1 else if v > o then 1 else 0

/-- Embedding of `Version.Compare`: numeric core first, then absent
prerelease above present prerelease, then prerelease precedence.
Metadata is ignored. -/
def semverCompare (a b : SemVer) : Int :=
  let d1 := compareSegment a.major b.major
  if d1 ≠ 0 then d1
  else
    let d2 := compareSegment a.minor b.minor
    if d2 ≠ 0 then d2
    else
      let d3 := compareSegment a.patch b.patch
      if d3 ≠ 0 then d3
      else
        if a.pre = "" ∧ b.pre = "" then 0
        else if a.pre = "" then 1
        else if b.pre = "" then -1
        else comparePreList (splitOnChar '.' a.pre) (splitOnChar '.' b.pre)

/-- `sort.Sort(semver.Collection)` with `Less` being
`Compare < 0`, realized as an insertion sort (the contract of
`sort.Sort` is some sorted permutation). -/
def semverInsert (x : SemVer) : List SemVer → List SemVer
  | [] => [x]
  | y :: t => if semverCompare x y < 0 then x :: y :: t else y :: semverInsert x t

/-- Ascending sort of the satisfying versions. -/
def semverSort : List SemVer → List SemVer
  | [] => []
  | x :: t => semverInsert x (semverSort t)

/-- The collection loop of `Npm_Resolve`: parse every version key (a
parse failure fails the resolve), keep the ones satisfying the
constraint, in iteration order. -/
def collectVersions {α : Type} (check : SemVer → Bool) :
    List (String × α) → Except String (List SemVer)
  | [] => Except.ok []
  | (k, _) :: rest =>
    match semverParse k with
    | none => Except.error "parse"
    | some v =>
      match collectVersions check rest with
      | Except.error e => Except.error e
      | Except.ok l => Except.ok (if check v then v :: l else l)

/-- Go map indexing `full.Versions[key]` over the association list. -/
def assocFind {α : Type} (versions : List (String × α)) (k : String) :
    Option α :=
  match versions with
  | [] => none
  | (k2, m) :: rest => if k2 = k then some m else assocFind rest k

/-- The backward walk of `Npm_Resolve` over the sorted versions:
return the metadata under the rendered version string, skipping
versions whose rendering is not a key. -/
def pickBackward {α : Type} (versions : List (String × α)) :
    List SemVer → Except String α
  | [] => Except.error "not found"
  | v :: rest =>
    match assocFind versions (semverRender v) with
    | some m => Except.ok m
    | none => pickBackward versions rest

/-- Embedding of the selection logic of `Npm_Resolve`: collect the
satisfying parsed versions, sort ascending, walk backward and return
the first metadata found under a rendered key. -/
def npmResolveCore {α : Type} (versions : List (String × α))
    (check : SemVer → Bool) : Except String α :=
  match collectVersions check versions with
  | Except.error e => Except.error e
  | Except.ok vs => pickBackward versions (semverSort vs).reverse

/-- Claim C3, counterexample.  A registry response whose version keys
all parse as semver but where one key is not rendered canonically:
`"2.0"` parses to `2.0.0`, satisfies the constraint (here: everything
satisfies) and is the highest satisfying version, but the backward
walk looks up the rendered string `"2.0.0"`, misses the key `"2.0"`,
and returns the metadata of `1.0.0` instead — refuting "the returned
Resolveable carries the highest version among those satisfying the
constraint". -/
theorem npmResolve_counterexample :
    npmResolveCore [("1.0.0", "A"), ("2.0", "B")] (fun _ => true) =
      Except.ok "A" ∧
    semverParse "1.0.0" = some ⟨1, 0, 0, "", ""⟩ ∧
    semverParse "2.0" = some ⟨2, 0, 0, "", ""⟩ ∧
    semverCompare ⟨1, 0, 0, "", ""⟩ ⟨2, 0, 0, "", ""⟩ < 0 :=
  ⟨rfl, rfl, rfl, by decide⟩

/-! ### Precedence order facts for the amended resolver claim.

The Masterminds comparison is not an order on degenerate inputs
(numeric prerelease identifiers with leading zeros compare `-1` in
both directions), so the lemmas below restrict to canonical
identifiers: nonempty, and numeric ones written canonically. -/

/-- A canonical prerelease identifier: nonempty; if numeric, it is the
canonical decimal rendering of its value (no leading zeros). -/
def PartCanon (p : String) : Prop :=
  p ≠ "" ∧ ∀ n, goParseUint64 p = some n → p = Nat.repr n

/-- Rank class of an identifier: empty below numeric below
alphanumeric. -/
def partClass (p : String) : Nat :=
  if p = "" then 0 else if (goParseUint64 p).isSome then 1 else 2

/-- Numeric value of an identifier (zero for non-numerics). -/
def partVal (p : String) : Nat :=
  (goParseUint64 p).getD 0

/-- The strict identifier order realized by `comparePrePart` on
canonical identifiers. -/
def PLt (p q : String) : Prop :=
  partClass p < partClass q ∨
  (partClass p = 1 ∧ partClass q = 1 ∧ partVal p < partVal q) ∨
  (partClass p = 2 ∧ partClass q = 2 ∧ p < q)

/-- Identifier comparison is reflexive. -/
theorem comparePrePart_self (p : String) : comparePrePart p p = 0 := by
  simp [comparePrePart]

/-- Identifier comparison returns zero only on equal strings. -/
theorem comparePrePart_eq_zero (p q : String)
    (h : comparePrePart p q = 0) : p = q := by
  by_cases hpq : p = q
  · exact hpq
  · exfalso
    unfold comparePrePart at h
    rw [if_neg hpq] at h
    by_cases hp : p = ""
    · rw [if_pos hp] at h
      split_ifs at h <;> omega
    · rw [if_neg hp] at h
      by_cases hq : q = ""
      · rw [if_pos hq] at h
        split_ifs at h <;> omega
      · rw [if_neg hq] at h
        cases ho : goParseUint64 q <;> cases hs : goParseUint64 p <;>
          rw [ho, hs] at h <;> dsimp only at h
        · split_ifs at h <;> omega
        · omega
        · omega
        · split_ifs at h <;> omega

/-- Identifier comparison takes only the three values of a sign. -/
theorem comparePrePart_range (p q : String) :
    comparePrePart p q = -1 ∨ comparePrePart p q = 0 ∨
      comparePrePart p q = 1 := by
  unfold comparePrePart
  split_ifs
  all_goals try omega
  all_goals cases ho : goParseUint64 q <;> cases hs : goParseUint64 p <;>
    dsimp only <;>
    first
      | (split_ifs <;> omega)
      | omega

/-- Identifier comparison flips sign with its arguments (`1` side). -/
theorem comparePrePart_flip1 (p q : String)
    (h : comparePrePart p q = 1) : comparePrePart q p = -1 := by
  by_cases hpq : p = q
  · rw [hpq, comparePrePart_self] at h
    omega
  · have hqp : ¬q = p := fun hc => hpq hc.symm
    unfold comparePrePart at h ⊢
    rw [if_neg hpq] at h
    rw [if_neg hqp]
    by_cases hp : p = ""
    · rw [if_pos hp] at h
      have hq2 : q ≠ "" := fun hc => hpq (hp.trans hc.symm)
      rw [if_pos hq2] at h
      omega
    · rw [if_neg hp] at h
      by_cases hq : q = ""
      · rw [if_pos hq]
        simp [hp]
      · rw [if_neg hq, if_neg hp]
        rw [if_neg hq] at h
        cases ho : goParseUint64 q <;> cases hs : goParseUint64 p <;>
          rw [ho, hs] at h <;> dsimp only at h ⊢
        all_goals try omega
        all_goals split_ifs at h with h1
        all_goals first
          | simp [lt_asymm h1]
          | omega


/-- Nonempty identifiers rank at least numeric. -/
theorem partClass_pos (p : String) (h : p ≠ "") : 1 ≤ partClass p := by
  unfold partClass
  rw [if_neg h]
  split_ifs <;> omega

/-- The identifier order is irreflexive. -/
theorem PLt_irrefl (p : String) : ¬PLt p p := by
  rintro (h | ⟨h1, h2, h3⟩ | ⟨h1, h2, h3⟩)
  · exact lt_irrefl _ h
  · exact lt_irrefl _ h3
  · exact lt_irrefl _ h3

/-- The identifier order is transitive. -/
theorem PLt_trans (p q r : String) (h1 : PLt p q) (h2 : PLt q r) :
    PLt p r := by
  rcases h1 with h1 | ⟨a1, b1, c1⟩ | ⟨a1, b1, c1⟩ <;>
    rcases h2 with h2 | ⟨a2, b2, c2⟩ | ⟨a2, b2, c2⟩
  · exact Or.inl (lt_trans h1 h2)
  · exact Or.inl (by omega)
  · exact Or.inl (by omega)
  · exact Or.inl (by omega)
  · exact Or.inr (Or.inl ⟨a1, b2, lt_trans c1 c2⟩)
  · exact absurd a2 (by omega)
  · exact Or.inl (by omega)
  · exact absurd a1 (by omega)
  · exact Or.inr (Or.inr ⟨a1, b2, lt_trans c1 c2⟩)

/-- On canonical (or empty) identifiers, `comparePrePart` returns `-1`
exactly on the strict identifier order. -/
theorem comparePrePart_lt_char (p q : String)
    (hp : p = "" ∨ PartCanon p) (hq : q = "" ∨ PartCanon q) :
    comparePrePart p q = -1 ↔ PLt p q := by
  by_cases hpq : p = q
  · subst hpq
    rw [comparePrePart_self]
    constructor
    · intro h
      exact absurd h (by decide)
    · intro h
      exact absurd h (PLt_irrefl p)
  · unfold comparePrePart
    rw [if_neg hpq]
    by_cases hpe : p = ""
    · rw [if_pos hpe]
      have hqe : q ≠ "" := fun hc => hpq (hpe.trans hc.symm)
      rw [if_pos hqe]
      constructor
      · intro _
        left
        have h0 : partClass p = 0 := by rw [hpe]; rfl
        have h1 := partClass_pos q hqe
        omega
      · intro _
        rfl
    · rw [if_neg hpe]
      have hpc : PartCanon p := hp.resolve_left hpe
      by_cases hqe : q = ""
      · rw [if_pos hqe, if_pos hpe]
        constructor
        · intro h
          exact absurd h (by decide)
        · rintro (h | ⟨h1, h2, h3⟩ | ⟨h1, h2, h3⟩) <;>
            (have h0 : partClass q = 0 := by rw [hqe]; rfl) <;>
            (have hgt := partClass_pos p hpe) <;> omega
      · rw [if_neg hqe]
        have hqc : PartCanon q := hq.resolve_left hqe
        cases ho : goParseUint64 q <;> cases hs : goParseUint64 p <;> dsimp only
        · have hcp : partClass p = 2 := by
            unfold partClass
            rw [if_neg hpe, hs]
            rfl
          have hcq : partClass q = 2 := by
            unfold partClass
            rw [if_neg hqe, ho]
            rfl
          constructor
          · intro h
            have hnqp : ¬q < p := by
              intro hc
              rw [if_pos hc] at h
              exact absurd h (by decide)
            have hlt : p < q := by
              rcases lt_trichotomy p q with h1 | h1 | h1
              · exact h1
              · exact absurd h1 hpq
              · exact absurd h1 hnqp
            exact Or.inr (Or.inr ⟨hcp, hcq, hlt⟩)
          · rintro (h | ⟨h1, h2, h3⟩ | ⟨h1, h2, h3⟩)
            · rw [hcp, hcq] at h
              omega
            · rw [hcp] at h1
              omega
            · rw [if_neg (lt_asymm h3)]
        · have hcp : partClass p = 1 := by
            unfold partClass
            rw [if_neg hpe, hs]
            rfl
          have hcq : partClass q = 2 := by
            unfold partClass
            rw [if_neg hqe, ho]
            rfl
          constructor
          · intro _
            exact Or.inl (by rw [hcp, hcq]; omega)
          · intro _
            rfl
        · have hcp : partClass p = 2 := by
            unfold partClass
            rw [if_neg hpe, hs]
            rfl
          have hcq : partClass q = 1 := by
            unfold partClass
            rw [if_neg hqe, ho]
            rfl
          constructor
          · intro h
            exact absurd h (by decide)
          · rintro (h | ⟨h1, h2, h3⟩ | ⟨h1, h2, h3⟩) <;> omega
        · rename_i oi si
          have hcp : partClass p = 1 := by
            unfold partClass
            rw [if_neg hpe, hs]
            rfl
          have hcq : partClass q = 1 := by
            unfold partClass
            rw [if_neg hqe, ho]
            rfl
          have hvp : partVal p = si := by
            unfold partVal
            rw [hs]
            rfl
          have hvq : partVal q = oi := by
            unfold partVal
            rw [ho]
            rfl
          constructor
          · intro h
            have hno : ¬oi < si := by
              intro hc
              rw [if_pos hc] at h
              exact absurd h (by decide)
            have hne : si ≠ oi := by
              intro hc
              exact hpq ((hpc.2 si hs).trans (hc ▸ (hqc.2 oi ho).symm))
            exact Or.inr (Or.inl ⟨hcp, hcq, by rw [hvp, hvq]; omega⟩)
          · rintro (h | ⟨h1, h2, h3⟩ | ⟨h1, h2, h3⟩)
            · rw [hcp, hcq] at h
              omega
            · rw [hvp, hvq] at h3
              rw [if_neg (lt_asymm h3)]
            · rw [hcp] at h1
              omega


/-- Part-wise prerelease comparison is reflexive. -/
theorem comparePreList_self (l : List String) : comparePreList l l = 0 := by
  induction l with
  | nil => rfl
  | cons p t ih => simp [comparePreList, comparePrePart_self, ih]

/-- The padding comparison takes only sign values. -/
theorem comparePreNil_range (l : List String) :
    comparePreNil l = -1 ∨ comparePreNil l = 0 ∨ comparePreNil l = 1 := by
  induction l with
  | nil => simp [comparePreNil]
  | cons q qt ih =>
    simp only [comparePreNil]
    split_ifs with hd
    · exact comparePrePart_range "" q
    · exact ih

/-- Part-wise prerelease comparison takes only sign values. -/
theorem comparePreList_range (a b : List String) :
    comparePreList a b = -1 ∨ comparePreList a b = 0 ∨
      comparePreList a b = 1 := by
  induction a generalizing b with
  | nil =>
    simp only [comparePreList]
    exact comparePreNil_range b
  | cons p pt ih =>
    cases b with
    | nil =>
      simp only [comparePreList]
      split_ifs with hd
      · exact comparePrePart_range p ""
      · exact ih []
    | cons q qt =>
      simp only [comparePreList]
      split_ifs with hd
      · exact comparePrePart_range p q
      · exact ih qt

/-- Part-wise prerelease comparison flips sign with its arguments. -/
theorem comparePreList_flip (a b : List String) :
    (comparePreList a b = 0 → comparePreList b a = 0) ∧
    (comparePreList a b = 1 → comparePreList b a = -1) := by
  induction a generalizing b with
  | nil =>
    simp only [comparePreList]
    induction b with
    | nil => exact ⟨fun _ => rfl, fun h => absurd h (by decide)⟩
    | cons q qt ihq =>
      simp only [comparePreNil, comparePreList]
      by_cases hd : comparePrePart "" q = 0
      · have hq : q = "" := (comparePrePart_eq_zero _ _ hd).symm
        subst hq
        simp only [comparePrePart_self, if_neg (by decide : ¬((0 : Int) ≠ 0))]
        simpa only [comparePreNil, comparePreList] using ihq
      · rw [if_pos hd]
        refine ⟨fun h => absurd h hd, fun h => ?_⟩
        have hf := comparePrePart_flip1 "" q h
        rw [if_pos (by rw [hf]; decide), hf]
  | cons p pt ih =>
    cases b with
    | nil =>
      simp only [comparePreList, comparePreNil]
      by_cases hd : comparePrePart p "" = 0
      · have hp : p = "" := comparePrePart_eq_zero _ _ hd
        subst hp
        simp only [comparePrePart_self, if_neg (by decide : ¬((0 : Int) ≠ 0))]
        have h2 := ih ([] : List String)
        simpa only [comparePreList] using h2
      · rw [if_pos hd]
        refine ⟨fun h => absurd h hd, fun h => ?_⟩
        have hf := comparePrePart_flip1 p "" h
        rw [if_pos (by rw [hf]; decide), hf]
    | cons q qt =>
      simp only [comparePreList]
      by_cases hd : comparePrePart p q = 0
      · have hp : p = q := comparePrePart_eq_zero _ _ hd
        subst hp
        simp only [comparePrePart_self, if_neg (by decide : ¬((0 : Int) ≠ 0))]
        exact ih qt
      · rw [if_pos hd]
        refine ⟨fun h => absurd h hd, fun h => ?_⟩
        have hf := comparePrePart_flip1 p q h
        rw [if_pos (by rw [hf]; decide), hf]

/-- Against canonical parts the empty list compares lowest-or-equal. -/
theorem comparePreList_nil_le (c : List String)
    (hc : ∀ x ∈ c, PartCanon x) : comparePreList [] c ≤ 0 := by
  simp only [comparePreList]
  cases c with
  | nil => simp [comparePreNil]
  | cons r rt =>
    have hr : r ≠ "" := (hc r (List.mem_cons_self r rt)).1
    have hcmp : comparePrePart "" r = -1 := by
      unfold comparePrePart
      rw [if_neg (fun hc2 => hr hc2.symm), if_pos rfl, if_pos hr]
    simp only [comparePreNil, hcmp]
    rw [if_pos (by decide : ((-1 : Int) ≠ 0))]
    decide

/-- A nonempty list of canonical parts compares above the empty
list. -/
theorem comparePreList_cons_nil (p : String) (pt : List String)
    (hp : p ≠ "") : comparePreList (p :: pt) [] = 1 := by
  have hcmp : comparePrePart p "" = 1 := by
    unfold comparePrePart
    rw [if_neg hp, if_neg hp, if_pos rfl, if_pos hp]
  simp only [comparePreList, hcmp]
  rw [if_pos (by decide : ((1 : Int) ≠ 0))]

/-- Part-wise prerelease comparison is transitive on canonical
parts. -/
theorem comparePreList_trans (a : List String) :
    ∀ b c, (∀ x ∈ a, PartCanon x) → (∀ x ∈ b, PartCanon x) →
      (∀ x ∈ c, PartCanon x) →
      comparePreList a b ≤ 0 → comparePreList b c ≤ 0 →
      comparePreList a c ≤ 0 := by
  induction a with
  | nil =>
    intro b c _ _ hc _ _
    exact comparePreList_nil_le c hc
  | cons p pt ih =>
    intro b c ha hb hc h1 h2
    have hpc : PartCanon p := ha p (List.mem_cons_self p pt)
    cases b with
    | nil =>
      rw [comparePreList_cons_nil p pt hpc.1] at h1
      exact absurd h1 (by decide)
    | cons q qt =>
      have hqc : PartCanon q := hb q (List.mem_cons_self q qt)
      cases c with
      | nil =>
        rw [comparePreList_cons_nil q qt hqc.1] at h2
        exact absurd h2 (by decide)
      | cons r rt =>
        have hrc : PartCanon r := hc r (List.mem_cons_self r rt)
        have hat : ∀ x ∈ pt, PartCanon x := fun x hx =>
          ha x (List.mem_cons_of_mem p hx)
        have hbt : ∀ x ∈ qt, PartCanon x := fun x hx =>
          hb x (List.mem_cons_of_mem q hx)
        have hct : ∀ x ∈ rt, PartCanon x := fun x hx =>
          hc x (List.mem_cons_of_mem r hx)
        simp only [comparePreList] at h1 h2 ⊢
        by_cases h01 : comparePrePart p q = 0
        · have hpq : p = q := comparePrePart_eq_zero _ _ h01
          subst hpq
          rw [comparePrePart_self] at h1
          simp only [ne_eq, not_true_eq_false, if_false] at h1
          by_cases h02 : comparePrePart p r = 0
          · have hpr : p = r := comparePrePart_eq_zero _ _ h02
            subst hpr
            rw [comparePrePart_self] at h2 ⊢
            simp only [ne_eq, not_true_eq_false, if_false] at h2 ⊢
            exact ih qt rt hat hbt hct h1 h2
          · rw [if_pos h02] at h2
            have hm : comparePrePart p r = -1 := by
              rcases comparePrePart_range p r with h | h | h
              · exact h
              · exact absurd h h02
              · rw [h] at h2
                exact absurd h2 (by decide)
            rw [if_pos (by rw [hm]; decide), hm]
            decide
        · rw [if_pos h01] at h1
          have hm1 : comparePrePart p q = -1 := by
            rcases comparePrePart_range p q with h | h | h
            · exact h
            · exact absurd h h01
            · rw [h] at h1
              exact absurd h1 (by decide)
          have hplt1 : PLt p q :=
            (comparePrePart_lt_char p q (Or.inr hpc) (Or.inr hqc)).mp hm1
          by_cases h02 : comparePrePart q r = 0
          · have hqr : q = r := comparePrePart_eq_zero _ _ h02
            subst hqr
            rw [if_pos (by rw [hm1]; decide), hm1]
            decide
          · rw [if_pos h02] at h2
            have hm2 : comparePrePart q r = -1 := by
              rcases comparePrePart_range q r with h | h | h
              · exact h
              · exact absurd h h02
              · rw [h] at h2
                exact absurd h2 (by decide)
            have hplt2 : PLt q r :=
              (comparePrePart_lt_char q r (Or.inr hqc) (Or.inr hrc)).mp hm2
            have hplt : PLt p r := PLt_trans p q r hplt1 hplt2
            have hm : comparePrePart p r = -1 :=
              (comparePrePart_lt_char p r (Or.inr hpc) (Or.inr hrc)).mpr hplt
            rw [if_pos (by rw [hm]; decide), hm]
            decide


/-- The prerelease side condition realized by the final branch of
`semverCompare`: an absent prerelease on the right ranks highest,
otherwise both must be present and compare part-wise low-or-equal. -/
def preLe (ps po : String) : Prop :=
  po = "" ∨ (ps ≠ "" ∧ po ≠ "" ∧
    comparePreList (splitOnChar '.' ps) (splitOnChar '.' po) ≤ 0)

/-- A version whose prerelease identifiers are all canonical. -/
def CanonV (v : SemVer) : Prop :=
  v.pre ≠ "" → ∀ x ∈ splitOnChar '.' v.pre, PartCanon x

/-- The prerelease side condition is reflexive. -/
theorem preLe_refl (ps : String) : preLe ps ps := by
  by_cases h : ps = ""
  · exact Or.inl h
  · exact Or.inr ⟨h, h, le_of_eq (comparePreList_self _)⟩

/-- The prerelease side condition is transitive on canonical
prerelease strings. -/
theorem preLe_trans (ps qs rs : String)
    (hp : ps ≠ "" → ∀ x ∈ splitOnChar '.' ps, PartCanon x)
    (hq : qs ≠ "" → ∀ x ∈ splitOnChar '.' qs, PartCanon x)
    (hr : rs ≠ "" → ∀ x ∈ splitOnChar '.' rs, PartCanon x)
    (h1 : preLe ps qs) (h2 : preLe qs rs) : preLe ps rs := by
  rcases h2 with h2 | ⟨hq2, hr2, h2⟩
  · exact Or.inl h2
  · rcases h1 with h1 | ⟨hp1, hq1, h1⟩
    · exact absurd h1 hq2
    · exact Or.inr ⟨hp1, hr2,
        comparePreList_trans _ _ _ (hp hp1) (hq hq1) (hr hr2) h1 h2⟩

/-- Segment comparison on a strictly smaller left operand. -/
theorem compareSegment_lt {x y : Nat} (h : x < y) :
    compareSegment x y = -1 := by
  unfold compareSegment
  rw [if_pos h]

/-- Segment comparison on equal operands. -/
theorem compareSegment_eq {x y : Nat} (h : x = y) :
    compareSegment x y = 0 := by
  unfold compareSegment
  rw [if_neg (by omega), if_neg (by omega)]

/-- Segment comparison on a strictly larger left operand. -/
theorem compareSegment_gt {x y : Nat} (h : y < x) :
    compareSegment x y = 1 := by
  unfold compareSegment
  rw [if_neg (by omega), if_pos (by omega : x > y)]

/-- Version comparison is reflexive. -/
theorem semverCompare_self (v : SemVer) : semverCompare v v = 0 := by
  simp only [semverCompare]
  rw [compareSegment_eq (rfl : v.major = v.major),
    if_neg (by decide : ¬((0 : Int) ≠ 0)),
    compareSegment_eq (rfl : v.minor = v.minor),
    if_neg (by decide : ¬((0 : Int) ≠ 0)),
    compareSegment_eq (rfl : v.patch = v.patch),
    if_neg (by decide : ¬((0 : Int) ≠ 0))]
  by_cases hp : v.pre = ""
  · rw [if_pos ⟨hp, hp⟩]
  · rw [if_neg (fun hcc => hp hcc.1), if_neg hp, if_neg hp,
      comparePreList_self]

/-- Version comparison takes only sign values. -/
theorem semverCompare_range (a b : SemVer) :
    semverCompare a b = -1 ∨ semverCompare a b = 0 ∨
      semverCompare a b = 1 := by
  simp only [semverCompare]
  rcases Nat.lt_trichotomy a.major b.major with h1 | h1 | h1
  · rw [compareSegment_lt h1, if_pos (by decide : ((-1 : Int) ≠ 0))]
    exact Or.inl rfl
  · rw [compareSegment_eq h1, if_neg (by decide : ¬((0 : Int) ≠ 0))]
    rcases Nat.lt_trichotomy a.minor b.minor with h2 | h2 | h2
    · rw [compareSegment_lt h2, if_pos (by decide : ((-1 : Int) ≠ 0))]
      exact Or.inl rfl
    · rw [compareSegment_eq h2, if_neg (by decide : ¬((0 : Int) ≠ 0))]
      rcases Nat.lt_trichotomy a.patch b.patch with h3 | h3 | h3
      · rw [compareSegment_lt h3, if_pos (by decide : ((-1 : Int) ≠ 0))]
        exact Or.inl rfl
      · rw [compareSegment_eq h3, if_neg (by decide : ¬((0 : Int) ≠ 0))]
        by_cases hab : a.pre = "" ∧ b.pre = ""
        · rw [if_pos hab]
          exact Or.inr (Or.inl rfl)
        · rw [if_neg hab]
          by_cases ha : a.pre = ""
          · rw [if_pos ha]
            exact Or.inr (Or.inr rfl)
          · rw [if_neg ha]
            by_cases hb : b.pre = ""
            · rw [if_pos hb]
              exact Or.inl rfl
            · rw [if_neg hb]
              exact comparePreList_range _ _
      · rw [compareSegment_gt h3, if_pos (by decide : ((1 : Int) ≠ 0))]
        exact Or.inr (Or.inr rfl)
    · rw [compareSegment_gt h2, if_pos (by decide : ((1 : Int) ≠ 0))]
      exact Or.inr (Or.inr rfl)
  · rw [compareSegment_gt h1, if_pos (by decide : ((1 : Int) ≠ 0))]
    exact Or.inr (Or.inr rfl)

/-- Version comparison flips zero with its arguments. -/
theorem semverCompare_flip0 (a b : SemVer) (h : semverCompare a b = 0) :
    semverCompare b a = 0 := by
  simp only [semverCompare] at h ⊢
  rcases Nat.lt_trichotomy a.major b.major with h1 | h1 | h1
  · rw [compareSegment_lt h1, if_pos (by decide : ((-1 : Int) ≠ 0))] at h
    exact absurd h (by decide)
  · rw [compareSegment_eq h1, if_neg (by decide : ¬((0 : Int) ≠ 0))] at h
    rw [compareSegment_eq h1.symm, if_neg (by decide : ¬((0 : Int) ≠ 0))]
    rcases Nat.lt_trichotomy a.minor b.minor with h2 | h2 | h2
    · rw [compareSegment_lt h2, if_pos (by decide : ((-1 : Int) ≠ 0))] at h
      exact absurd h (by decide)
    · rw [compareSegment_eq h2, if_neg (by decide : ¬((0 : Int) ≠ 0))] at h
      rw [compareSegment_eq h2.symm, if_neg (by decide : ¬((0 : Int) ≠ 0))]
      rcases Nat.lt_trichotomy a.patch b.patch with h3 | h3 | h3
      · rw [compareSegment_lt h3, if_pos (by decide : ((-1 : Int) ≠ 0))] at h
        exact absurd h (by decide)
      · rw [compareSegment_eq h3, if_neg (by decide : ¬((0 : Int) ≠ 0))] at h
        rw [compareSegment_eq h3.symm, if_neg (by decide : ¬((0 : Int) ≠ 0))]
        by_cases hab : a.pre = "" ∧ b.pre = ""
        · rw [if_pos ⟨hab.2, hab.1⟩]
        · rw [if_neg hab] at h
          by_cases ha : a.pre = ""
          · rw [if_pos ha] at h
            exact absurd h (by decide)
          · rw [if_neg ha] at h
            by_cases hb : b.pre = ""
            · rw [if_pos hb] at h
              exact absurd h (by decide)
            · rw [if_neg hb] at h
              rw [if_neg (fun hcc => hb hcc.1), if_neg hb, if_neg ha]
              exact (comparePreList_flip _ _).1 h
      · rw [compareSegment_gt h3, if_pos (by decide : ((1 : Int) ≠ 0))] at h
        exact absurd h (by decide)
    · rw [compareSegment_gt h2, if_pos (by decide : ((1 : Int) ≠ 0))] at h
      exact absurd h (by decide)
  · rw [compareSegment_gt h1, if_pos (by decide : ((1 : Int) ≠ 0))] at h
    exact absurd h (by decide)

/-- Version comparison flips one with its arguments. -/
theorem semverCompare_flip1 (a b : SemVer) (h : semverCompare a b = 1) :
    semverCompare b a = -1 := by
  simp only [semverCompare] at h ⊢
  rcases Nat.lt_trichotomy a.major b.major with h1 | h1 | h1
  · rw [compareSegment_lt h1, if_pos (by decide : ((-1 : Int) ≠ 0))] at h
    exact absurd h (by decide)
  · rw [compareSegment_eq h1, if_neg (by decide : ¬((0 : Int) ≠ 0))] at h
    rw [compareSegment_eq h1.symm, if_neg (by decide : ¬((0 : Int) ≠ 0))]
    rcases Nat.lt_trichotomy a.minor b.minor with h2 | h2 | h2
    · rw [compareSegment_lt h2, if_pos (by decide : ((-1 : Int) ≠ 0))] at h
      exact absurd h (by decide)
    · rw [compareSegment_eq h2, if_neg (by decide : ¬((0 : Int) ≠ 0))] at h
      rw [compareSegment_eq h2.symm, if_neg (by decide : ¬((0 : Int) ≠ 0))]
      rcases Nat.lt_trichotomy a.patch b.patch with h3 | h3 | h3
      · rw [compareSegment_lt h3, if_pos (by decide : ((-1 : Int) ≠ 0))] at h
        exact absurd h (by decide)
      · rw [compareSegment_eq h3, if_neg (by decide : ¬((0 : Int) ≠ 0))] at h
        rw [compareSegment_eq h3.symm, if_neg (by decide : ¬((0 : Int) ≠ 0))]
        by_cases hab : a.pre = "" ∧ b.pre = ""
        · rw [if_pos hab] at h
          exact absurd h (by decide)
        · rw [if_neg hab] at h
          by_cases ha : a.pre = ""
          · have hb : b.pre ≠ "" := fun hbe => hab ⟨ha, hbe⟩
            rw [if_neg (fun hcc => hb hcc.1), if_neg hb, if_pos ha]
          · rw [if_neg ha] at h
            by_cases hb : b.pre = ""
            · rw [if_pos hb] at h
              exact absurd h (by decide)
            · rw [if_neg hb] at h
              rw [if_neg (fun hcc => hb hcc.1), if_neg hb, if_neg ha]
              exact (comparePreList_flip _ _).2 h
      · rw [compareSegment_gt h3, if_pos (by decide : ((1 : Int) ≠ 0))] at h
        rw [compareSegment_lt h3, if_pos (by decide : ((-1 : Int) ≠ 0))]
    · rw [compareSegment_gt h2, if_pos (by decide : ((1 : Int) ≠ 0))] at h
      rw [compareSegment_lt h2, if_pos (by decide : ((-1 : Int) ≠ 0))]
  · rw [compareSegment_gt h1, if_pos (by decide : ((1 : Int) ≠ 0))] at h
    rw [compareSegment_lt h1, if_pos (by decide : ((-1 : Int) ≠ 0))]

/-- If a version does not compare strictly below another, the other
compares low-or-equal against it. -/
theorem semverCompare_not_lt (x y : SemVer)
    (h : ¬semverCompare x y < 0) : semverCompare y x ≤ 0 := by
  rcases semverCompare_range x y with h1 | h1 | h1
  · have hlt : semverCompare x y < 0 := by
      rw [h1]
      decide
    exact absurd hlt h
  · exact le_of_eq (semverCompare_flip0 x y h1)
  · rw [semverCompare_flip1 x y h1]
    decide

/-- Lexicographic characterization of low-or-equal version
comparison. -/
theorem semverCompare_le_iff (a b : SemVer) :
    semverCompare a b ≤ 0 ↔
      (a.major < b.major ∨ (a.major = b.major ∧
        (a.minor < b.minor ∨ (a.minor = b.minor ∧
          (a.patch < b.patch ∨ (a.patch = b.patch ∧
            preLe a.pre b.pre)))))) := by
  simp only [semverCompare]
  rcases Nat.lt_trichotomy a.major b.major with h1 | h1 | h1
  · rw [compareSegment_lt h1, if_pos (by decide : ((-1 : Int) ≠ 0))]
    exact ⟨fun _ => Or.inl h1, fun _ => by decide⟩
  · rw [compareSegment_eq h1, if_neg (by decide : ¬((0 : Int) ≠ 0))]
    rcases Nat.lt_trichotomy a.minor b.minor with h2 | h2 | h2
    · rw [compareSegment_lt h2, if_pos (by decide : ((-1 : Int) ≠ 0))]
      exact ⟨fun _ => Or.inr ⟨h1, Or.inl h2⟩, fun _ => by decide⟩
    · rw [compareSegment_eq h2, if_neg (by decide : ¬((0 : Int) ≠ 0))]
      rcases Nat.lt_trichotomy a.patch b.patch with h3 | h3 | h3
      · rw [compareSegment_lt h3, if_pos (by decide : ((-1 : Int) ≠ 0))]
        exact ⟨fun _ => Or.inr ⟨h1, Or.inr ⟨h2, Or.inl h3⟩⟩,
          fun _ => by decide⟩
      · rw [compareSegment_eq h3, if_neg (by decide : ¬((0 : Int) ≠ 0))]
        constructor
        · intro h
          refine Or.inr ⟨h1, Or.inr ⟨h2, Or.inr ⟨h3, ?_⟩⟩⟩
          by_cases hb : b.pre = ""
          · exact Or.inl hb
          · by_cases ha : a.pre = ""
            · rw [if_neg (fun hcc => hb hcc.2), if_pos ha] at h
              exact absurd h (by decide)
            · rw [if_neg (fun hcc => ha hcc.1), if_neg ha, if_neg hb] at h
              exact Or.inr ⟨ha, hb, h⟩
        · rintro (hlt | ⟨-, hlt | ⟨-, hlt | ⟨-, hpre⟩⟩⟩)
          · exact absurd hlt (by omega)
          · exact absurd hlt (by omega)
          · exact absurd hlt (by omega)
          · rcases hpre with hb | ⟨ha, hb, hle⟩
            · by_cases ha : a.pre = ""
              · rw [if_pos ⟨ha, hb⟩]
              · rw [if_neg (fun hcc => ha hcc.1), if_neg ha, if_pos hb]
                decide
            · rw [if_neg (fun hcc => ha hcc.1), if_neg ha, if_neg hb]
              exact hle
      · rw [compareSegment_gt h3, if_pos (by decide : ((1 : Int) ≠ 0))]
        constructor
        · intro h
          exact absurd h (by decide)
        · rintro (hlt | ⟨-, hlt | ⟨-, hlt | ⟨heq, -⟩⟩⟩)
          · exact absurd hlt (by omega)
          · exact absurd hlt (by omega)
          · exact absurd hlt (by omega)
          · exact absurd heq (by omega)
    · rw [compareSegment_gt h2, if_pos (by decide : ((1 : Int) ≠ 0))]
      constructor
      · intro h
        exact absurd h (by decide)
      · rintro (hlt | ⟨-, hlt | ⟨heq, -⟩⟩)
        · exact absurd hlt (by omega)
        · exact absurd hlt (by omega)
        · exact absurd heq (by omega)
  · rw [compareSegment_gt h1, if_pos (by decide : ((1 : Int) ≠ 0))]
    constructor
    · intro h
      exact absurd h (by decide)
    · rintro (hlt | ⟨heq, -⟩)
      · exact absurd hlt (by omega)
      · exact absurd heq (by omega)

/-- Version comparison is transitive on canonical versions. -/
theorem semverCompare_trans (a b c : SemVer)
    (ha : CanonV a) (hb : CanonV b) (hc : CanonV c)
    (h1 : semverCompare a b ≤ 0) (h2 : semverCompare b c ≤ 0) :
    semverCompare a c ≤ 0 := by
  rw [semverCompare_le_iff] at h1 h2 ⊢
  rcases h1 with h1 | ⟨e1, h1⟩
  · rcases h2 with h2 | ⟨e2, h2⟩
    · exact Or.inl (by omega)
    · exact Or.inl (by omega)
  · rcases h2 with h2 | ⟨e2, h2⟩
    · exact Or.inl (by omega)
    · refine Or.inr ⟨by omega, ?_⟩
      rcases h1 with h1 | ⟨f1, h1⟩
      · rcases h2 with h2 | ⟨f2, h2⟩
        · exact Or.inl (by omega)
        · exact Or.inl (by omega)
      · rcases h2 with h2 | ⟨f2, h2⟩
        · exact Or.inl (by omega)
        · refine Or.inr ⟨by omega, ?_⟩
          rcases h1 with h1 | ⟨g1, h1⟩
          · rcases h2 with h2 | ⟨g2, h2⟩
            · exact Or.inl (by omega)
            · exact Or.inl (by omega)
          · rcases h2 with h2 | ⟨g2, h2⟩
            · exact Or.inl (by omega)
            · exact Or.inr ⟨by omega, preLe_trans _ _ _ ha hb hc h1 h2⟩


/-- The ascending comparison relation used by the sort. -/
def semverLe (x y : SemVer) : Prop := semverCompare x y ≤ 0

/-- Insertion preserves the members. -/
theorem mem_semverInsert (x v : SemVer) (l : List SemVer) :
    v ∈ semverInsert x l ↔ v = x ∨ v ∈ l := by
  induction l with
  | nil => simp [semverInsert]
  | cons y t ih =>
    simp only [semverInsert]
    split_ifs with hc
    · simp [List.mem_cons]
    · simp only [List.mem_cons, ih]
      tauto

/-- The sort preserves the members. -/
theorem mem_semverSort (v : SemVer) (l : List SemVer) :
    v ∈ semverSort l ↔ v ∈ l := by
  induction l with
  | nil => simp [semverSort]
  | cons x t ih => simp [semverSort, mem_semverInsert, ih]

/-- Insertion into an ascending chain yields an ascending chain. -/
theorem chain_semverInsert (x : SemVer) (l : List SemVer)
    (hl : List.Chain' semverLe l) :
    List.Chain' semverLe (semverInsert x l) := by
  induction l with
  | nil => simp [semverInsert]
  | cons y t ih =>
    simp only [semverInsert]
    split_ifs with hc
    · exact List.chain'_cons.mpr ⟨le_of_lt hc, hl⟩
    · have hyx : semverLe y x := semverCompare_not_lt x y hc
      have htail : List.Chain' semverLe (semverInsert x t) := ih hl.tail
      refine List.chain'_cons'.mpr ⟨?_, htail⟩
      intro h hh
      cases t with
      | nil =>
        simp [semverInsert] at hh
        subst hh
        exact hyx
      | cons z tt =>
        simp only [semverInsert] at hh
        split_ifs at hh with hc2
        · simp at hh
          subst hh
          exact hyx
        · simp at hh
          subst hh
          exact (List.chain'_cons.mp hl).1

/-- The sort output is an ascending chain. -/
theorem chain_semverSort (l : List SemVer) :
    List.Chain' semverLe (semverSort l) := by
  induction l with
  | nil => simp [semverSort]
  | cons x t ih => exact chain_semverInsert x (semverSort t) ih

/-- In an ascending chain of canonical versions, the head of the
reversed list bounds every member from above. -/
theorem chain_le_rev_head (l : List SemVer)
    (hl : List.Chain' semverLe l) (hcanon : ∀ v ∈ l, CanonV v) :
    ∀ m rest, l.reverse = m :: rest → ∀ x ∈ l, semverCompare x m ≤ 0 := by
  induction l with
  | nil =>
    intro m rest hrev
    simp at hrev
  | cons y t ih =>
    intro m rest hrev x hx
    cases t with
    | nil =>
      rw [show ([y] : List SemVer).reverse = [y] from rfl] at hrev
      injection hrev with h1 h2
      have hxy : x = y := List.mem_singleton.mp hx
      subst hxy
      rw [← h1]
      exact le_of_eq (semverCompare_self x)
    | cons z tt =>
      rw [List.reverse_cons] at hrev
      obtain ⟨m2, rest2, hrev2⟩ :
          ∃ m2 rest2, (z :: tt).reverse = m2 :: rest2 := by
        cases hh : (z :: tt).reverse with
        | nil => exact absurd hh (by simp)
        | cons a b2 => exact ⟨a, b2, rfl⟩
      rw [hrev2] at hrev
      have hm : m = m2 := by
        have hh := congrArg List.head? hrev
        simpa using hh.symm
      subst hm
      have hchain := List.chain'_cons.mp hl
      have hcanon_t : ∀ v ∈ z :: tt, CanonV v := fun v hv =>
        hcanon v (List.mem_cons_of_mem y hv)
      have IH := ih hchain.2 hcanon_t m rest2 hrev2
      have hm_mem : m ∈ z :: tt := by
        rw [← List.mem_reverse, hrev2]
        exact List.mem_cons_self m rest2
      rcases List.mem_cons.mp hx with rfl | hxt
      · have hzm : semverCompare z m ≤ 0 := IH z (List.mem_cons_self z tt)
        exact semverCompare_trans x z m
          (hcanon x (List.mem_cons_self x (z :: tt)))
          (hcanon z (List.mem_cons_of_mem x (List.mem_cons_self z tt)))
          (hcanon m (List.mem_cons_of_mem x hm_mem))
          hchain.1 hzm
      · exact IH x hxt

/-- The head of the reversed sort bounds every input from above. -/
theorem semverSort_rev_max (vs : List SemVer)
    (hcanon : ∀ v ∈ vs, CanonV v) (m : SemVer) (rest : List SemVer)
    (hrev : (semverSort vs).reverse = m :: rest) :
    ∀ x ∈ vs, semverCompare x m ≤ 0 := by
  intro x hx
  have hx2 : x ∈ semverSort vs := (mem_semverSort x vs).mpr hx
  have hcanon2 : ∀ v ∈ semverSort vs, CanonV v := fun v hv =>
    hcanon v ((mem_semverSort v vs).mp hv)
  exact chain_le_rev_head (semverSort vs) (chain_semverSort vs) hcanon2
    m rest hrev x hx2


/-- When every key parses, the collection loop succeeds and collects
exactly the satisfying parsed versions. -/
theorem collectVersions_ok {α : Type} (check : SemVer → Bool)
    (versions : List (String × α))
    (hparse : ∀ kv ∈ versions, (semverParse kv.1).isSome) :
    ∃ vs, collectVersions check versions = Except.ok vs ∧
      ∀ v, v ∈ vs ↔ ∃ kv, kv ∈ versions ∧
        semverParse kv.1 = some v ∧ check v = true := by
  induction versions with
  | nil =>
    refine ⟨[], rfl, ?_⟩
    intro v
    simp
  | cons kv rest ih =>
    obtain ⟨k, mv⟩ := kv
    obtain ⟨v0, hv0⟩ : ∃ v0, semverParse k = some v0 :=
      Option.isSome_iff_exists.mp
        (hparse (k, mv) (List.mem_cons_self (k, mv) rest))
    obtain ⟨vs, hvs, hmem⟩ :=
      ih (fun kv2 h2 => hparse kv2 (List.mem_cons_of_mem (k, mv) h2))
    refine ⟨if check v0 then v0 :: vs else vs, ?_, ?_⟩
    · simp only [collectVersions, hv0, hvs]
    · intro v
      split_ifs with hcheck
      · constructor
        · intro hv
          rcases List.mem_cons.mp hv with rfl | hv2
          · exact ⟨(k, mv), List.mem_cons_self (k, mv) rest, hv0, hcheck⟩
          · obtain ⟨kv2, h2, h3, h4⟩ := (hmem v).mp hv2
            exact ⟨kv2, List.mem_cons_of_mem (k, mv) h2, h3, h4⟩
        · rintro ⟨kv2, h2, h3, h4⟩
          rcases List.mem_cons.mp h2 with rfl | h5
          · have hvv : v0 = v := Option.some.inj (hv0.symm.trans h3)
            exact hvv ▸ List.mem_cons_self v0 vs
          · exact List.mem_cons_of_mem v0 ((hmem v).mpr ⟨kv2, h5, h3, h4⟩)
      · constructor
        · intro hv
          obtain ⟨kv2, h2, h3, h4⟩ := (hmem v).mp hv
          exact ⟨kv2, List.mem_cons_of_mem (k, mv) h2, h3, h4⟩
        · rintro ⟨kv2, h2, h3, h4⟩
          rcases List.mem_cons.mp h2 with rfl | h5
          · have hvv : v0 = v := Option.some.inj (hv0.symm.trans h3)
            subst hvv
            exact absurd h4 hcheck
          · exact (hmem v).mpr ⟨kv2, h5, h3, h4⟩

/-- A successful map lookup returns a pair of the list. -/
theorem assocFind_mem {α : Type} (versions : List (String × α))
    (k : String) (m : α) (h : assocFind versions k = some m) :
    (k, m) ∈ versions := by
  induction versions with
  | nil => simp [assocFind] at h
  | cons kv rest ih =>
    obtain ⟨k2, m2⟩ := kv
    simp only [assocFind] at h
    split_ifs at h with he
    · injection h with h2
      subst he
      subst h2
      exact List.mem_cons_self _ _
    · exact List.mem_cons_of_mem _ (ih h)

/-- A key present in the list makes the map lookup succeed. -/
theorem assocFind_isSome {α : Type} (versions : List (String × α))
    (k : String) (m : α) (h : (k, m) ∈ versions) :
    ∃ m2, assocFind versions k = some m2 := by
  induction versions with
  | nil => simp at h
  | cons kv rest ih =>
    obtain ⟨k2, m2⟩ := kv
    simp only [assocFind]
    by_cases he : k2 = k
    · exact ⟨m2, by rw [if_pos he]⟩
    · rw [if_neg he]
      rcases List.mem_cons.mp h with heq | ht
      · injection heq with h1 h2
        exact absurd h1.symm he
      · exact ih ht


/-- Claim C3, amended.  For a registry response whose version keys all
parse as semver, are rendered canonically (`String()` of the parse
gives back the key, with canonical prerelease identifiers), the
resolver returns the metadata stored under a key that parses to a
satisfying version maximal in semver order among all satisfying
versions; if no version satisfies the constraint it returns the
not-found error.  (The canonical-key hypothesis is necessary: see the
counterexample for the original claim.) -/
theorem npmResolve_highest_canonical {α : Type}
    (versions : List (String × α)) (check : SemVer → Bool)
    (hkeys : ∀ kv ∈ versions, ∃ v, semverParse kv.1 = some v ∧
      semverRender v = kv.1 ∧ CanonV v) :
    ((∀ kv ∈ versions, ∀ v, semverParse kv.1 = some v →
        check v = false) →
      npmResolveCore versions check = Except.error "not found") ∧
    (∀ kv0 ∈ versions, ∀ v0, semverParse kv0.1 = some v0 →
      check v0 = true →
      ∃ k m v, npmResolveCore versions check = Except.ok m ∧
        (k, m) ∈ versions ∧ semverParse k = some v ∧ check v = true ∧
        ∀ kv2 ∈ versions, ∀ v2, semverParse kv2.1 = some v2 →
          check v2 = true → semverCompare v2 v ≤ 0) := by
  have hparse : ∀ kv ∈ versions, (semverParse kv.1).isSome := by
    intro kv hkv
    obtain ⟨v, hv, -, -⟩ := hkeys kv hkv
    rw [hv]
    rfl
  obtain ⟨vs, hvs, hmem⟩ := collectVersions_ok check versions hparse
  have hcanon_vs : ∀ v ∈ vs, CanonV v := by
    intro v hv
    obtain ⟨kv, hkv, hp, -⟩ := (hmem v).mp hv
    obtain ⟨v2, hp2, -, hcv⟩ := hkeys kv hkv
    have he : v = v2 := Option.some.inj (hp.symm.trans hp2)
    exact he ▸ hcv
  constructor
  · intro hnone
    have hvs_nil : vs = [] := by
      cases hvse : vs with
      | nil => rfl
      | cons v vt =>
        obtain ⟨kv, hkv, hp, hc⟩ := (hmem v).mp
          (by rw [hvse]; exact List.mem_cons_self v vt)
        rw [hnone kv hkv v hp] at hc
        exact absurd hc (by decide)
    subst hvs_nil
    simp only [npmResolveCore, hvs]
    rfl
  · intro kv0 hkv0 v0 hparse0 hcheck0
    have hv0_vs : v0 ∈ vs := (hmem v0).mpr ⟨kv0, hkv0, hparse0, hcheck0⟩
    have hsort_mem : v0 ∈ semverSort vs := (mem_semverSort v0 vs).mpr hv0_vs
    obtain ⟨m, rrest, hrev⟩ :
        ∃ m rrest, (semverSort vs).reverse = m :: rrest := by
      cases hh : (semverSort vs).reverse with
      | nil =>
        rw [List.reverse_eq_nil_iff] at hh
        rw [hh] at hsort_mem
        exact absurd hsort_mem (List.not_mem_nil v0)
      | cons a b2 => exact ⟨a, b2, rfl⟩
    have hm_sort : m ∈ semverSort vs := by
      rw [← List.mem_reverse, hrev]
      exact List.mem_cons_self m rrest
    have hm_vs : m ∈ vs := (mem_semverSort m vs).mp hm_sort
    obtain ⟨kvm, hkvm, hpm, hcm⟩ := (hmem m).mp hm_vs
    obtain ⟨vm, hpm2, hrender, -⟩ := hkeys kvm hkvm
    have hvm : vm = m := Option.some.inj (hpm2.symm.trans hpm)
    have hrender_m : semverRender m = kvm.1 := hvm ▸ hrender
    obtain ⟨mfound, hfound⟩ := assocFind_isSome versions kvm.1 kvm.2
      (by rw [Prod.mk.eta]; exact hkvm)
    refine ⟨kvm.1, mfound, m, ?_,
      assocFind_mem versions kvm.1 mfound hfound, hpm, hcm, ?_⟩
    · simp only [npmResolveCore, hvs]
      rw [hrev]
      simp only [pickBackward, hrender_m, hfound]
    · intro kv2 hkv2 v2 hp2 hc2
      have hv2_vs : v2 ∈ vs := (hmem v2).mpr ⟨kv2, hkv2, hp2, hc2⟩
      exact semverSort_rev_max vs hcanon_vs m rrest hrev v2 hv2_vs

/-- Closed instance of the amended resolver theorem: a two-version
registry response with canonical keys and an all-satisfying
constraint. -/
theorem npmResolve_highest_canonical_witness :
    ∃ k m v, npmResolveCore [("1.0.0", "A"), ("2.0.0", "B")]
        (fun _ => true) = Except.ok m ∧
      (k, m) ∈ [("1.0.0", "A"), ("2.0.0", "B")] ∧
      semverParse k = some v ∧ (fun _ => true : SemVer → Bool) v = true ∧
      ∀ kv2 ∈ [("1.0.0", "A"), ("2.0.0", "B")], ∀ v2,
        semverParse kv2.1 = some v2 →
        (fun _ => true : SemVer → Bool) v2 = true →
        semverCompare v2 v ≤ 0 :=
  (npmResolve_highest_canonical [("1.0.0", "A"), ("2.0.0", "B")]
    (fun _ => true)
    (by
      intro kv hkv
      rcases List.mem_cons.mp hkv with rfl | h2
      · exact ⟨⟨1, 0, 0, "", ""⟩, rfl, rfl, fun hc => absurd rfl hc⟩
      · rcases List.mem_cons.mp h2 with rfl | h3
        · exact ⟨⟨2, 0, 0, "", ""⟩, rfl, rfl, fun hc => absurd rfl hc⟩
        · exact absurd h3 (List.not_mem_nil kv))).2
    ("1.0.0", "A") (List.mem_cons_self _ _) ⟨1, 0, 0, "", ""⟩ rfl rfl


end Jmod
